import Mathlib

/-!
# etcd snapshot / restore core of vcluster

A shallow embedding of `pkg/etcd` (`restore.go`, `snapshot.go`, `storage_kine.go`,
`storage_etcd.go`), of the tar helpers of `pkg/util/compress` and of `mergeMaps` of
`pkg/oci/chart.go`, followed by the
properties of the specification that were checked against it.

Conventions.
* A Go `string` / `[]byte` is a `List Char` (`Bytes`).
* A Go function returning `(T, error)` whose value is still used when the error is
  tolerated returns `T × Option Err`; one returning only `error` together with a
  mutated backend returns `Option Err × Server`.
* The etcd server reached through `clientv3` is an in-memory table of
  `mvccpb.KeyValue` records with a global revision counter; the connection is
  reliable, so an RPC never fails in transport.  The order in which a range
  request returns keys is the order of the table.
-/

namespace Etcd

/-- Go `string` and `[]byte`. -/
abbrev Bytes := List Char

/-- Constant `registryPrefix` of `snapshot.go`. -/
def registryPrefix : Bytes := "/registry/".toList

/-- Constant `originalPrefix` of `restore.go`. -/
def originalPrefix : Bytes := "/original/".toList

/-- Go `strings.HasPrefix(s, prefix)`. -/
def HasPrefix (s pre : Bytes) : Bool := pre.isPrefixOf s

/-- Go `strings.TrimPrefix(s, prefix)`: `s` without the leading `prefix`, and `s`
itself when it does not start with `prefix`. -/
def TrimPrefix (s pre : Bytes) : Bytes :=
  if HasPrefix s pre then s.drop pre.length else s

/-- Errors of the package.  `ErrKeyNotFound` is the sentinel of `storage_kine.go`;
`wrap` is `fmt.Errorf("...: %w", err)`. -/
inductive Err where
  | ErrKeyNotFound
  | keyExists
  | revisionMismatch (revision : Nat)
  | unsupportedDistro
  | lib (msg : String)
  | wrap (msg : String) (inner : Err)
deriving DecidableEq, Repr

/-- Go `errors.Is(err, ErrKeyNotFound)`: looks through the `%w` chain. -/
def Err.isKeyNotFound : Err → Bool
  | .ErrKeyNotFound => true
  | .wrap _ e => e.isKeyNotFound
  | _ => false

/-- Record `mvccpb.KeyValue` (the fields the package reads). -/
structure KeyValue where
  Key : Bytes
  Value : Bytes
  ModRevision : Nat
deriving DecidableEq, Repr

/-- Struct `Value` of `storage_kine.go`. -/
structure Value where
  Key : Bytes
  Data : Bytes
  Modified : Nat
deriving DecidableEq, Repr

/-- Go zero value `Value{}`. -/
def Value.zero : Value := ⟨[], [], 0⟩

/-- The etcd server behind the client: its key table and current revision. -/
structure Server where
  kvs : List KeyValue
  revision : Nat
deriving DecidableEq, Repr

/-- Response `Kvs` of `etcdClient.Get(ctx, key)`. -/
def Server.range (s : Server) (key : Bytes) : List KeyValue :=
  s.kvs.filter (fun kv => kv.Key = key)

/-- Response `Kvs` of `etcdClient.Get(ctx, prefix, clientv3.WithPrefix())`. -/
def Server.rangePrefix (s : Server) (pre : Bytes) : List KeyValue :=
  s.kvs.filter (fun kv => HasPrefix kv.Key pre)

/-- The `ModRevision(key)` a transaction compares: zero for a key that is absent. -/
def Server.modRevision (s : Server) (key : Bytes) : Nat :=
  match s.kvs.find? (fun kv => kv.Key = key) with
  | some kv => kv.ModRevision
  | none => 0

/-- Replace the record of `key` in the table, or append it. -/
def upsert (key value : Bytes) (rev : Nat) : List KeyValue → List KeyValue
  | [] => [⟨key, value, rev⟩]
  | kv :: rest =>
    if kv.Key = key then ⟨key, value, rev⟩ :: rest else kv :: upsert key value rev rest

/-- Operation `clientv3.OpPut(key, value)`: writes at a new revision. -/
def Server.opPut (s : Server) (key value : Bytes) : Server :=
  { kvs := upsert key value (s.revision + 1) s.kvs, revision := s.revision + 1 }

/-- Operation `clientv3.OpDelete(key)`: removes the key; the revision moves only
when something was removed. -/
def Server.opDelete (s : Server) (key : Bytes) : Server :=
  if s.kvs.any (fun kv => kv.Key = key) then
    { kvs := s.kvs.filter (fun kv => ¬ kv.Key = key), revision := s.revision + 1 }
  else s

/-- Transaction `Txn().If(Compare(ModRevision(key), "=", rev)).Then(op)` (with a
read-only or missing `Else`): the flag is `resp.Succeeded`. -/
def Server.txn (s : Server) (key : Bytes) (rev : Nat) (op : Server → Server) : Bool × Server :=
  if s.modRevision key = rev then (true, op s) else (false, s)

/-- Whether `key` is stored. -/
def Server.has (s : Server) (key : Bytes) : Bool := s.kvs.any (fun kv => kv.Key = key)

/-! ## `storage_kine.go` -/

/-- Method `kineStorage.List`. -/
def kineStorage.List (s : Server) (pre : Bytes) : List KeyValue × Option Err :=
  (s.rangePrefix pre, none)

/-- Method `kineStorage.Get`. -/
def kineStorage.Get (s : Server) (key : Bytes) : Value × Option Err :=
  match s.range key with
  | [kv] => (⟨kv.Key, kv.Value, kv.ModRevision⟩, none)
  | _ => (Value.zero, some Err.ErrKeyNotFound)

/-- Method `kineStorage.Create`. -/
def kineStorage.Create (s : Server) (key value : Bytes) : Option Err × Server :=
  match s.txn key 0 (fun t => t.opPut key value) with
  | (true, s') => (none, s')
  | (false, s') => (some Err.keyExists, s')

/-- Method `kineStorage.Update`. -/
def kineStorage.Update (s : Server) (key : Bytes) (revision : Nat) (value : Bytes) :
    Option Err × Server :=
  match s.txn key revision (fun t => t.opPut key value) with
  | (true, s') => (none, s')
  | (false, s') => (some (Err.revisionMismatch revision), s')

/-- Method `kineStorage.Put`. -/
def kineStorage.Put (s : Server) (key value : Bytes) : Option Err × Server :=
  match kineStorage.Get s key with
  | (_, some err) => (some err, s)
  | (val, none) =>
    if val.Modified = 0 then kineStorage.Create s key value
    else kineStorage.Update s key val.Modified value

/-- Method `kineStorage.Delete`. -/
def kineStorage.Delete (s : Server) (key : Bytes) : Option Err × Server :=
  match kineStorage.Get s key with
  | (_, some err) => (some err, s)
  | (val, none) =>
    if val.Modified = 0 then (some Err.ErrKeyNotFound, s)
    else
      match s.txn key val.Modified (fun t => t.opDelete key) with
      | (true, s') => (none, s')
      | (false, s') => (some (Err.revisionMismatch val.Modified), s')

/-! ## `storage_etcd.go` -/

/-- Method `etcdStorage.List`. -/
def etcdStorage.List (s : Server) (pre : Bytes) : List KeyValue × Option Err :=
  (s.rangePrefix pre, none)

/-- Method `etcdStorage.Get`: `getResponse.Count` is the number of keys in range. -/
def etcdStorage.Get (s : Server) (key : Bytes) : Value × Option Err :=
  if (s.range key).length ≠ 1 then (Value.zero, some Err.ErrKeyNotFound)
  else
    match s.range key with
    | kv :: _ => (⟨kv.Key, kv.Value, kv.ModRevision⟩, none)
    | [] => (Value.zero, some Err.ErrKeyNotFound)

/-- Method `etcdStorage.Put`: an unconditional `etcdClient.Put`. -/
def etcdStorage.Put (s : Server) (key value : Bytes) : Option Err × Server :=
  (none, s.opPut key value)

/-- Method `etcdStorage.Delete`: an unconditional `etcdClient.Delete`, whose
response (the count of deleted keys) is dropped. -/
def etcdStorage.Delete (s : Server) (key : Bytes) : Option Err × Server :=
  (none, s.opDelete key)

/-! ## `restore.go` -/

/-- The object codec and the JSON merge-patch libraries `restore.go` imports
(`runtime.Decoder`, `runtime.Encoder`, `jsonmergepatch`, `jsonpatch`).  They are
parameters of the embedding.  `β` is the type of a serialized document (`[]byte`
in Go); `emptyPatch` is the text `"{}"`. -/
structure Libs (β Obj : Type) where
  /-- Decoder of the storage (`storage.Decode`). -/
  Decode : β → Except Err Obj
  /-- Encoder of the storage (`storage.Encode`, the protobuf serializer). -/
  Encode : Obj → Except Err β
  /-- Encoder `jsonSerializer`. -/
  EncodeJSON : Obj → Except Err β
  /-- Function `jsonmergepatch.CreateThreeWayJSONMergePatch(original, modified, current)`. -/
  CreateThreeWayJSONMergePatch : β → β → β → Except Err β
  /-- Function `jsonpatch.MergePatch(doc, patch)`. -/
  MergePatch : β → β → Except Err β
  /-- The document `"{}"`. -/
  emptyPatch : β

/-- Function `convert`: decode the object and encode it again with `encoder`.  The
encoder is taken to emit at least one byte, so the returned slice is not nil. -/
def convert {β Obj : Type} (object : β) (decoder : β → Except Err Obj)
    (encoder : Obj → Except Err β) : Except Err β :=
  match decoder object with
  | .error err => .error (Err.wrap "decode object" err)
  | .ok objDecoded =>
    match encoder objDecoded with
    | .error err => .error (Err.wrap "encode object" err)
    | .ok encoded => .ok encoded

/-- Function `applyThreeWayMerge`.  The result `none` is the nil slice ("no update"). -/
def applyThreeWayMerge {β Obj : Type} [DecidableEq β]
    (originalValue modifiedValue currentValue : β) (libs : Libs β Obj) :
    Except Err (Option β) :=
  if originalValue = modifiedValue then .ok none
  else
    match convert originalValue libs.Decode libs.EncodeJSON with
    | .error err => .error (Err.wrap "convert original object" err)
    | .ok originalJson =>
    match convert modifiedValue libs.Decode libs.EncodeJSON with
    | .error err => .error (Err.wrap "convert modified object" err)
    | .ok modifiedJson =>
    match convert currentValue libs.Decode libs.EncodeJSON with
    | .error err => .error (Err.wrap "convert current object" err)
    | .ok currentJson =>
    match libs.CreateThreeWayJSONMergePatch originalJson modifiedJson currentJson with
    | .error err => .error (Err.wrap "create three-way json merge patch" err)
    | .ok patch =>
      if patch = libs.emptyPatch then .ok none
      else
        match libs.MergePatch currentJson patch with
        | .error err => .error (Err.wrap "apply three-way json merge patch" err)
        | .ok newValue =>
          match convert newValue libs.Decode libs.Encode with
          | .error err => .error err
          | .ok encoded => .ok (some encoded)

/-- Interface `Storage` of `storage_kine.go` (its data operations) over a backend
state `σ`. -/
structure Storage (σ : Type) where
  List : σ → Bytes → List KeyValue × Option Err
  Get : σ → Bytes → Value × Option Err
  Put : σ → Bytes → Bytes → Option Err × σ
  Delete : σ → Bytes → Option Err × σ

/-- The translator (kine) backend as a `Storage`. -/
def kineStorage : Storage Server :=
  ⟨kineStorage.List, kineStorage.Get, kineStorage.Put, kineStorage.Delete⟩

/-- The native etcd backend as a `Storage`. -/
def etcdStorage : Storage Server :=
  ⟨etcdStorage.List, etcdStorage.Get, etcdStorage.Put, etcdStorage.Delete⟩

/-- A call made on the `Storage` interface by the restore engine. -/
inductive Call where
  | List (pre : Bytes)
  | Get (key : Bytes)
  | Put (key value : Bytes)
  | Delete (key : Bytes)
deriving DecidableEq, Repr

/-- A backend together with the interface calls issued on it so far (oldest first). -/
structure Session (σ : Type) where
  backend : σ
  calls : List Call

/-- The shadow key `restoreKeyValue` computes (line 116 of `restore.go`). -/
def originalKeyOf (key : Bytes) : Bytes :=
  originalPrefix ++ TrimPrefix registryPrefix key

/-- Lines 142 to 154 of `restoreKeyValue`: write `value` to `key`, then to `originalKey`. -/
def writeBoth {σ : Type} (client : Storage σ) (ss : Session σ) (key originalKey value : Bytes) :
    (Bytes × Option Err) × Session σ :=
  match client.Put ss.backend key value with
  | (some err, b) => (([], some err), ⟨b, ss.calls ++ [Call.Put key value]⟩)
  | (none, b) =>
    match client.Put b originalKey value with
    | (some err, b') =>
      (([], some err), ⟨b', ss.calls ++ [Call.Put key value, Call.Put originalKey value]⟩)
    | (none, b') =>
      ((originalKey, none), ⟨b', ss.calls ++ [Call.Put key value, Call.Put originalKey value]⟩)

/-- Function `restoreKeyValue`: returns the touched shadow key and the error. -/
def restoreKeyValue {σ Obj : Type} (client : Storage σ) (libs : Libs Bytes Obj)
    (ss : Session σ) (key value : Bytes) : (Bytes × Option Err) × Session σ :=
  if ¬ HasPrefix key registryPrefix then
    (([], (client.Put ss.backend key value).1),
      ⟨(client.Put ss.backend key value).2, ss.calls ++ [Call.Put key value]⟩)
  else
    let originalKey := originalKeyOf key
    let originalValue := client.Get ss.backend originalKey
    let ss1 : Session σ := ⟨ss.backend, ss.calls ++ [Call.Get originalKey]⟩
    match originalValue.2.filter (fun err => ¬ err.isKeyNotFound) with
    | some err => (([], some (Err.wrap "retrieve original value" err)), ss1)
    | none =>
      let currentValue := client.Get ss.backend key
      let ss2 : Session σ := ⟨ss.backend, ss1.calls ++ [Call.Get key]⟩
      match currentValue.2.filter (fun err => ¬ err.isKeyNotFound) with
      | some err => (([], some (Err.wrap "retrieve current value" err)), ss2)
      | none =>
        if originalValue.1.Modified ≠ 0 ∧ currentValue.1.Modified ≠ 0 then
          match applyThreeWayMerge originalValue.1.Data value currentValue.1.Data libs with
          | .error err => (([], some (Err.wrap "apply three way merge" err)), ss2)
          | .ok none => ((originalKey, none), ss2)
          | .ok (some merged) => writeBoth client ss2 key originalKey merged
        else writeBoth client ss2 key originalKey value

/-- The tar stream handed to `Restore`: its entries in order, and the error other
than `io.EOF` that `compress.ReadKeyValue` meets after them, if any. -/
structure Archive where
  entries : List (Bytes × Bytes)
  readErr : Option Err

/-- The loop of lines 64 to 80 of `Restore`: replay the archive on the kine backend,
collecting `touchedKeys`. -/
def replayLoop {Obj : Type} (libs : Libs Bytes Obj) (readErr : Option Err) :
    List (Bytes × Bytes) → Session Server → List Bytes →
    Option Err × Session Server × List Bytes
  | [], ss, touchedKeys =>
    match readErr with
    | some err => (some (Err.wrap "read etcd key/value" err), ss, touchedKeys)
    | none => (none, ss, touchedKeys)
  | (key, value) :: rest, ss, touchedKeys =>
    if key.length = 0 then (none, ss, touchedKeys)
    else
      match restoreKeyValue kineStorage libs ss key value with
      | ((_, some err), ss') => (some (Err.wrap "write key" err), ss', touchedKeys)
      | ((originalKey, none), ss') =>
        replayLoop libs readErr rest ss'
          (if originalKey ≠ [] then originalKey :: touchedKeys else touchedKeys)

/-- The loop of lines 87 to 97 of `Restore`: delete the listed keys that were not
touched. -/
def sweepLoop : List KeyValue → Session Server → List Bytes → Option Err × Session Server
  | [], ss, _ => (none, ss)
  | keyValue :: rest, ss, touchedKeys =>
    if keyValue.Key ∈ touchedKeys then sweepLoop rest ss touchedKeys
    else
      match kineStorage.Delete ss.backend keyValue.Key with
      | (some err, b) =>
        (some (Err.wrap "delete key" err), ⟨b, ss.calls ++ [Call.Delete keyValue.Key]⟩)
      | (none, b) => sweepLoop rest ⟨b, ss.calls ++ [Call.Delete keyValue.Key]⟩ touchedKeys

/-- What the process environment gives `Restore` and `Snapshot`: whether
`constants.GetVClusterDistro()` is `constants.K3SDistro`, and the result of
bringing up the kine client (`storage.Start`, `GetEtcdClient`) and of `os.Create`. -/
structure Env where
  distroIsK3s : Bool
  startErr : Option Err
  createErr : Option Err

/-- What a run of `Restore` leaves: the returned error, the backend, the touched
set and the interface calls issued. -/
structure Outcome where
  err : Option Err
  server : Server
  touchedKeys : List Bytes
  calls : List Call

/-- Function `Restore`; `data = none` is the nil reader. -/
def Restore {Obj : Type} (env : Env) (libs : Libs Bytes Obj) (data : Option Archive)
    (s : Server) : Outcome :=
  match data with
  | none => ⟨none, s, [], []⟩
  | some archive =>
    if ¬ env.distroIsK3s then ⟨some Err.unsupportedDistro, s, [], []⟩
    else
      match env.startErr with
      | some err => ⟨some (Err.wrap "start kine" err), s, [], []⟩
      | none =>
        match replayLoop libs archive.readErr archive.entries ⟨s, []⟩ [] with
        | (some err, ss, touchedKeys) => ⟨some err, ss.backend, touchedKeys, ss.calls⟩
        | (none, ss, touchedKeys) =>
          match kineStorage.List ss.backend originalPrefix with
          | (_, some err) =>
            ⟨some err, ss.backend, touchedKeys, ss.calls ++ [Call.List originalPrefix]⟩
          | (keyValues, none) =>
            match sweepLoop keyValues ⟨ss.backend, ss.calls ++ [Call.List originalPrefix]⟩
                touchedKeys with
            | (err, ss') => ⟨err, ss'.backend, touchedKeys, ss'.calls⟩

/-! ## `snapshot.go` -/

/-- A character class of a regular expression. -/
inductive CharClass where
  /-- A literal character. -/
  | lit (c : Char)
  /-- The negated class `[^c]`. -/
  | notChar (c : Char)
  /-- The class `.`, which in Go matches any character but a newline. -/
  | dot
deriving DecidableEq, Repr

/-- Whether a class accepts a character. -/
def CharClass.accepts : CharClass → Char → Bool
  | .lit c, x => x = c
  | .notChar c, x => x ≠ c
  | .dot, x => x ≠ '\n'

/-- An item of a regular expression without alternation: a class, or a class
repeated one or more times. -/
inductive Atom where
  | one (cls : CharClass)
  | plus (cls : CharClass)
deriving DecidableEq, Repr

/-- Whether the expression matches some leading part of the input. -/
def matchFrom : List Atom → Bytes → Bool
  | [], _ => true
  | _ :: _, [] => false
  | Atom.one cls :: atoms, c :: cs => cls.accepts c && matchFrom atoms cs
  | Atom.plus cls :: atoms, c :: cs =>
    cls.accepts c && (matchFrom atoms cs || matchFrom (Atom.plus cls :: atoms) cs)

/-- Go `(*regexp.Regexp).Match(b)`: whether `b` contains a match anywhere. -/
def Regexp.Match (re : List Atom) (b : Bytes) : Bool :=
  b.tails.any (fun t => matchFrom re t)

/-- The literal characters of a pattern. -/
def literal (s : String) : List Atom := s.toList.map (fun c => Atom.one (CharClass.lit c))

/-- The pattern `/registry/configmaps/[^/]+/kube-root-ca?crt` with the class `d` at
the place of the `?`. -/
def kubeRootCaCrtWith (d : CharClass) : List Atom :=
  literal "/registry/configmaps/" ++ [Atom.plus (CharClass.notChar '/')] ++
    literal "/kube-root-ca" ++ [Atom.one d] ++ literal "crt"

/-- Variable `kubeRootCaCrt` of `snapshot.go`:
`/registry/configmaps/[^/]+/kube-root-ca.crt`, the dot not escaped. -/
def kubeRootCaCrt : List Atom := kubeRootCaCrtWith CharClass.dot

/-- The pattern as the specification writes it, with a literal dot:
`/registry/configmaps/[^/]+/kube-root-ca\.crt`. -/
def specKubeRootCaCrt : List Atom := kubeRootCaCrtWith (CharClass.lit '.')

/-- Variable `excludeAnnotation` of `snapshot.go`. -/
def excludeAnnotation : Bytes := "vcluster.loft.sh/exclude".toList

/-- Go `m[k]` on a `map[string]string`: the empty string when `k` is missing. -/
def mapIndex (m : List (Bytes × Bytes)) (k : Bytes) : Bytes :=
  match m.find? (fun e => e.1 = k) with
  | some e => e.2
  | none => []

/-- The decoder `Snapshot` uses (`codecFactory.UniversalDeserializer()`) and
`obj.GetAnnotations()` on what it decodes; `none` is the nil map. -/
structure ObjectCodec (Obj : Type) where
  Decode : Bytes → Except Err Obj
  GetAnnotations : Obj → Option (List (Bytes × Bytes))

/-- The test of line 94 of `snapshot.go`:
`annotations != nil && annotations[excludeAnnotation] == "true"`. -/
def isExcluded {Obj : Type} (codec : ObjectCodec Obj) (obj : Obj) : Bool :=
  match codec.GetAnnotations obj with
  | none => false
  | some annotations => mapIndex annotations excludeAnnotation = "true".toList

/-- Function `compress.WriteKeyValue` on an in-memory tar stream. -/
def WriteKeyValue (tarWriter : List (Bytes × Bytes)) (key value : Bytes) :
    Option Err × List (Bytes × Bytes) :=
  (none, tarWriter ++ [(key, value)])

/-- Function `snapshotKeyValue`. -/
def snapshotKeyValue {Obj : Type} (codec : ObjectCodec Obj) (tarWriter : List (Bytes × Bytes))
    (key value : Bytes) : Option Err × List (Bytes × Bytes) :=
  match codec.Decode value with
  | .error err => (some (Err.wrap "decode object" err), tarWriter)
  | .ok obj =>
    if isExcluded codec obj then (none, tarWriter)
    else WriteKeyValue tarWriter key value

/-- The loop of lines 63 to 79 of `Snapshot` over `result.Kvs`. -/
def snapshotLoop {Obj : Type} (codec : ObjectCodec Obj) :
    List KeyValue → List (Bytes × Bytes) → Option Err × List (Bytes × Bytes)
  | [], tarWriter => (none, tarWriter)
  | r :: rest, tarWriter =>
    if r.Key.length = 0 ∨ r.Value.length = 0 then snapshotLoop codec rest tarWriter
    else if Regexp.Match kubeRootCaCrt r.Key then snapshotLoop codec rest tarWriter
    else
      match snapshotKeyValue codec tarWriter r.Key r.Value with
      | (some err, tarWriter') => (some (Err.wrap "snapshot key" err), tarWriter')
      | (none, tarWriter') => snapshotLoop codec rest tarWriter'

/-- Function `Snapshot`: the returned error and the entries written to the tar file. -/
def Snapshot {Obj : Type} (env : Env) (codec : ObjectCodec Obj) (s : Server) :
    Option Err × List (Bytes × Bytes) :=
  if ¬ env.distroIsK3s then (some Err.unsupportedDistro, [])
  else
    match env.createErr with
    | some err => (some err, [])
    | none =>
      match env.startErr with
      | some err => (some err, [])
      | none => snapshotLoop codec (s.rangePrefix registryPrefix) []

/-! ## JSON documents and the three-way merge of the specification -/

mutual
/-- A JSON value: `null`, an object, or any other value (number, string, boolean,
array) kept as its text. -/
inductive Json where
  | null
  | atom (text : Bytes)
  | obj (fields : Fields)
/-- The members of a JSON object, in order. -/
inductive Fields where
  | nil
  | cons (name : Bytes) (value : Json) (rest : Fields)
end

mutual
/-- Equality of JSON values is decidable. -/
def Json.decEq : (a b : Json) → Decidable (a = b)
  | .null, .null => isTrue rfl
  | .atom s, .atom t =>
    if h : s = t then isTrue (by rw [h]) else isFalse (fun e => h (Json.atom.inj e))
  | .obj f, .obj g =>
    match Fields.decEq f g with
    | isTrue h => isTrue (by rw [h])
    | isFalse h => isFalse (fun e => h (Json.obj.inj e))
  | .null, .atom _ => isFalse (fun e => Json.noConfusion e)
  | .null, .obj _ => isFalse (fun e => Json.noConfusion e)
  | .atom _, .null => isFalse (fun e => Json.noConfusion e)
  | .atom _, .obj _ => isFalse (fun e => Json.noConfusion e)
  | .obj _, .null => isFalse (fun e => Json.noConfusion e)
  | .obj _, .atom _ => isFalse (fun e => Json.noConfusion e)
/-- Equality of member lists is decidable. -/
def Fields.decEq : (a b : Fields) → Decidable (a = b)
  | .nil, .nil => isTrue rfl
  | .cons n v r, .cons n' v' r' =>
    if hn : n = n' then
      match Json.decEq v v' with
      | isTrue hv =>
        match Fields.decEq r r' with
        | isTrue hr => isTrue (by rw [hn, hv, hr])
        | isFalse hr => isFalse (fun e => hr (Fields.cons.inj e).2.2)
      | isFalse hv => isFalse (fun e => hv (Fields.cons.inj e).2.1)
    else isFalse (fun e => hn (Fields.cons.inj e).1)
  | .nil, .cons _ _ _ => isFalse (fun e => Fields.noConfusion e)
  | .cons _ _ _, .nil => isFalse (fun e => Fields.noConfusion e)
end

instance : DecidableEq Json := Json.decEq
instance : DecidableEq Fields := Fields.decEq

/-- Member lookup: the first member of that name. -/
def Fields.lookup : Fields → Bytes → Option Json
  | .nil, _ => none
  | .cons n v rest, name => if n = name then some v else rest.lookup name

/-- Remove every member of that name. -/
def Fields.erase : Fields → Bytes → Fields
  | .nil, _ => .nil
  | .cons n v rest, name => if n = name then rest.erase name else .cons n v (rest.erase name)

/-- Set a member: replace the first member of that name, or append. -/
def Fields.set : Fields → Bytes → Json → Fields
  | .nil, name, x => .cons name x .nil
  | .cons n v rest, name, x =>
    if n = name then .cons n x rest else .cons n v (rest.set name x)

/-- Concatenation of member lists. -/
def Fields.append : Fields → Fields → Fields
  | .nil, gs => gs
  | .cons n v rest, gs => .cons n v (rest.append gs)

/-- The member names, in order. -/
def Fields.keys : Fields → List Bytes
  | .nil => []
  | .cons n _ rest => n :: rest.keys

mutual
/-- Modelled from the spec: step 5 of the three-way merge, "apply the patch to
`current` via RFC 7396 merge patch" (`jsonpatch.MergePatch`, a library that is not
part of the repository).  A patch that is not an object replaces the target; an
object patch is applied member by member to the target (taken as the empty object
when it is not an object). -/
def mergePatch : Json → Json → Json
  | target, .obj ps =>
    .obj (mergeFields (match target with | .obj ts => ts | _ => .nil) ps)
  | _, .null => .null
  | _, .atom t => .atom t
/-- Modelled from the spec: the member loop of RFC 7396 `MergePatch`: a `null` member
removes the name from the target, any other member sets the name to the patch
applied to the target's value of that name. -/
def mergeFields : Fields → Fields → Fields
  | ts, .nil => ts
  | ts, .cons n .null rest => mergeFields (ts.erase n) rest
  | ts, .cons n (.atom t) rest =>
    mergeFields (ts.set n (mergePatch ((ts.lookup n).getD .null) (.atom t))) rest
  | ts, .cons n (.obj ps) rest =>
    mergeFields (ts.set n (mergePatch ((ts.lookup n).getD .null) (.obj ps))) rest
end

/-- Modelled from the spec: "fields `modified` removes are removed": a `null` member
for every member of `original` that `modified` lacks. -/
def removed : Fields → Fields → Fields
  | .nil, _ => .nil
  | .cons n _ rest, ms =>
    if ms.lookup n = none then .cons n .null (removed rest ms) else removed rest ms

mutual
/-- Modelled from the spec: the delta from an original value to a modified value: two
objects differ by the delta of their members, anything else is replaced by the
modified value. -/
def diffValue : Json → Json → Json
  | .obj os, .obj ms => .obj ((diffFields os ms).append (removed os ms))
  | _, .obj ms => .obj ms
  | _, .null => .null
  | _, .atom t => .atom t
/-- Modelled from the spec: "a field changed in `modified` relative to `original` is
applied; a field unchanged in `modified` is left at `current`'s value": one patch
member for every member of `modified` that `original` lacks or holds with another
value, none for a member that is unchanged. -/
def diffFields : Fields → Fields → Fields
  | _, .nil => .nil
  | os, .cons n mv rest =>
    match os.lookup n with
    | some ov =>
      if ov = mv then diffFields os rest else .cons n (diffValue ov mv) (diffFields os rest)
    | none => .cons n mv (diffFields os rest)
end

/-- Modelled from the spec: step 3 of the three-way merge
(`jsonmergepatch.CreateThreeWayJSONMergePatch`, a library that is not part of the
repository): the patch is the delta from `original` to `modified`; it is rebased
over `current` by being applied to it in step 5. -/
def specCreateThreeWayJSONMergePatch (original modified _current : Json) : Except Err Json :=
  match original, modified with
  | .obj os, .obj ms => .ok (.obj ((diffFields os ms).append (removed os ms)))
  | _, _ => .error (Err.lib "not a JSON object")

/-- The libraries as `Restore` and `newKineStorage` wire them (`restore.go` lines 54
to 58, `storage_kine.go` lines 60 to 71), over JSON documents given as trees.
`convert` always decodes into an `*unstructured.Unstructured` (`restore.go` line
201); `Encode` is the protobuf serializer, which encodes only objects that
implement the protobuf marshalling interface, and an `Unstructured` does not, so
`Encode` fails on every object `convert` hands it.  The decoder accepts the JSON
objects, the JSON serializer writes the object back, and the two patch functions
are the ones modelled from the spec above. -/
def wiredLibs : Libs Json Json :=
  { Decode := fun doc =>
      match doc with
      | .obj fields => .ok (.obj fields)
      | _ => .error (Err.lib "not a JSON object")
    Encode := fun _ => .error (Err.lib "Unstructured does not implement protobuf marshalling")
    EncodeJSON := fun obj => .ok obj
    CreateThreeWayJSONMergePatch := specCreateThreeWayJSONMergePatch
    MergePatch := fun doc patch => .ok (mergePatch doc patch)
    emptyPatch := .obj .nil }

/-! ## `Close` of the two backends -/

/-- The etcd client a backend holds after `Start`: what `etcdClient.Close()` returns. -/
structure Client where
  closeResult : Option Err

/-- Method `etcdStorage.Close` (`return r.Close()`), run with a bound on the number of
calls: `none` when the call has not returned within the bound. -/
def etcdStorage.Close (r : Client) : Nat → Option (Option Err)
  | 0 => none
  | fuel + 1 => etcdStorage.Close r fuel

/-- Method `kineStorage.Close`, run with a bound on the number of calls: once the
supervised process has drained it returns `k.etcdClient.Close()`. -/
def kineStorage.Close (k : Client) : Nat → Option (Option Err)
  | 0 => none
  | _ + 1 => some k.closeResult

/-! ## `pkg/oci/chart.go`

A Go `map[string]interface{}` is a `Fields` without duplicate names; a value of
type `interface{}` is a `Json`: `null` is nil, `obj` a nested
`map[string]interface{}`, `atom` any other value. -/

/-- The copy loop of lines 88 to 90 of `mergeMaps`: `out[k] = v` for every entry. -/
def copyInto (out : Fields) : Fields → Fields
  | .nil => out
  | .cons k v rest => copyInto (out.set k v) rest

mutual
/-- The value lines 92 to 100 of `mergeMaps` store at a key of `b` whose value is
`v`, given `out[k]`: the merge of the two when both are maps, and `v` otherwise. -/
def mergeValue : Option Json → Json → Json
  | some (.obj bv), .obj v => .obj (mergeInto (copyInto .nil bv) v)
  | _, .obj v => .obj v
  | _, .null => .null
  | _, .atom t => .atom t
/-- The loop of lines 91 to 101 of `mergeMaps` over the entries of `b`. -/
def mergeInto : Fields → Fields → Fields
  | out, .nil => out
  | out, .cons k v rest => mergeInto (out.set k (mergeValue (out.lookup k) v)) rest
end

/-- Function `mergeMaps` of `pkg/oci/chart.go`. -/
def mergeMaps (a b : Fields) : Fields := mergeInto (copyInto .nil a) b

/-! ## Predicates used by the properties -/

/-- The entry `(key, value)` takes the "no update" exit of `restoreKeyValue` on the
kine store `s`: both reads return a non-zero revision and the three-way merge of
what they return reports no change. -/
def noUpdate {Obj : Type} (libs : Libs Bytes Obj) (s : Server) (key value : Bytes) : Prop :=
  (kineStorage.Get s (originalKeyOf key)).1.Modified ≠ 0 ∧
  (kineStorage.Get s key).1.Modified ≠ 0 ∧
  applyThreeWayMerge (kineStorage.Get s (originalKeyOf key)).1.Data value
    (kineStorage.Get s key).1.Data libs = .ok none

/-- The interface calls a replay issues when no entry needs an update. -/
def settledCalls (entries : List (Bytes × Bytes)) : List Call :=
  entries.flatMap (fun e => [Call.Get (originalKeyOf e.1), Call.Get e.1])

/-- Syntactic inclusion of character classes: equal, or a literal other than a
newline under the dot. -/
def CharClass.le : CharClass → CharClass → Bool
  | .lit c, .dot => c ≠ '\n'
  | a, b => a = b

/-- Inclusion of expressions, item by item. -/
def reLe : List Atom → List Atom → Bool
  | [], [] => true
  | Atom.one a :: as, Atom.one b :: bs => a.le b && reLe as bs
  | Atom.plus a :: as, Atom.plus b :: bs => a.le b && reLe as bs
  | _, _ => false

/-- The entries `Snapshot` keeps: key and value not empty, key not matched by
`kubeRootCaCrt`, and the decoded object not excluded. -/
def kept {Obj : Type} (codec : ObjectCodec Obj) (r : KeyValue) : Bool :=
  !(decide (r.Key.length = 0 ∨ r.Value.length = 0)) && !(Regexp.Match kubeRootCaCrt r.Key) &&
    (match codec.Decode r.Value with
     | .ok obj => !(isExcluded codec obj)
     | .error _ => false)

/-! ## Fixtures -/

/-- Libraries that fail on every call, for runs that never reach them. -/
def failingLibs : Libs Bytes Unit :=
  { Decode := fun _ => .error (Err.lib "decode")
    Encode := fun _ => .error (Err.lib "encode")
    EncodeJSON := fun _ => .error (Err.lib "encode")
    CreateThreeWayJSONMergePatch := fun _ _ _ => .error (Err.lib "patch")
    MergePatch := fun _ _ => .error (Err.lib "patch")
    emptyPatch := "{}".toList }

/-- An environment in which the distro is k3s and kine and the file system work. -/
def k3sEnv : Env := ⟨true, none, none⟩

/-- A codec whose objects are their own annotation maps: the value `excluded`
decodes to an object annotated `vcluster.loft.sh/exclude = "true"`, the value
`broken` does not decode, every other value decodes to an object without
annotations. -/
def sampleCodec : ObjectCodec (Option (List (Bytes × Bytes))) :=
  { Decode := fun value =>
      if value = "excluded".toList then .ok (some [( excludeAnnotation, "true".toList)])
      else if value = "broken".toList then .error (Err.lib "decode")
      else .ok none
    GetAnnotations := fun obj => obj }

/-- A listing with a pod, a `kube-root-ca.crt` config map, an excluded object and a
config map whose name differs from `kube-root-ca.crt` in the place of the dot. -/
def sampleListing : Server :=
  ⟨[⟨"/registry/pods/ns/p".toList, "v".toList, 2⟩,
    ⟨"/registry/configmaps/ns/kube-root-ca.crt".toList, "v".toList, 3⟩,
    ⟨"/registry/secrets/ns/s".toList, "excluded".toList, 4⟩,
    ⟨"/registry/configmaps/ns/kube-root-caXcrt".toList, "v".toList, 5⟩], 5⟩

/-- A store holding the live key `/registry/a`, the shadow key `restoreKeyValue`
derives for it, and a stale key under `/original/`. -/
def staleServer : Server :=
  ⟨[⟨"/registry/a".toList, "x".toList, 2⟩, ⟨"/original//registry/".toList, "x".toList, 3⟩,
    ⟨"/original/old".toList, "o".toList, 4⟩], 4⟩

/-- The archive with the single entry `("/registry/a", "x")`. -/
def oneEntryArchive : Archive := ⟨[("/registry/a".toList, "x".toList)], none⟩

/-- Stand-in libraries over byte strings for runs in which no document is written:
the decoder drops the blanks of a document, the JSON serializer writes the decoded
text back, the patch of two equal documents is `{}` (no other patch is known), and
the protobuf serializer fails as it does on an `Unstructured`. -/
def blankBlindLibs : Libs Bytes Bytes :=
  { Decode := fun doc => .ok (doc.filter (fun c => c ≠ ' '))
    Encode := fun _ => .error (Err.lib "Unstructured does not implement protobuf marshalling")
    EncodeJSON := fun obj => .ok obj
    CreateThreeWayJSONMergePatch := fun original modified _ =>
      if original = modified then .ok "{}".toList else .error (Err.lib "patch")
    MergePatch := fun _ _ => .error (Err.lib "patch")
    emptyPatch := "{}".toList }

/-- A store holding two live registry keys, the shadow key `restoreKeyValue` derives
for them, and a stale key under `/original/`. -/
def twoKeyServer : Server :=
  ⟨[⟨"/registry/a".toList, "{a:1}".toList, 2⟩, ⟨"/registry/b".toList, "{b:2}".toList, 3⟩,
    ⟨"/original//registry/".toList, "{a:1}".toList, 4⟩,
    ⟨"/original/old".toList, "o".toList, 5⟩], 5⟩

/-- An archive of two registry entries whose values differ as bytes. -/
def twoEntryArchive : Archive :=
  ⟨[("/registry/a".toList, "{a:1}".toList), ("/registry/b".toList, "{a: 1}".toList)], none⟩

/-- Chart values `{x: 1, m: {p: 1}}`. -/
def chartValues : Fields :=
  .cons "x".toList (.atom "1".toList)
    (.cons "m".toList (.obj (.cons "p".toList (.atom "1".toList) .nil)) .nil)

/-- A release config `{m: {q: 2}, x: nil, y: 3}`. -/
def releaseConfig : Fields :=
  .cons "m".toList (.obj (.cons "q".toList (.atom "2".toList) .nil))
    (.cons "x".toList .null (.cons "y".toList (.atom "3".toList) .nil))

/-! ## Auxiliary lemmas -/

theorem originalKeyOf_registry (key : Bytes) (h : HasPrefix key registryPrefix = true) :
    originalKeyOf key =
      if key = registryPrefix then originalPrefix else originalPrefix ++ registryPrefix := by
  unfold originalKeyOf TrimPrefix
  by_cases hk : key = registryPrefix
  · subst hk
    decide
  · have hnot : HasPrefix registryPrefix key = false := by
      by_contra hc
      have h1 : key <+: registryPrefix := by
        simpa [HasPrefix] using hc
      have h2 : registryPrefix <+: key := by
        simpa [HasPrefix] using h
      exact hk (h1.eq_of_length_le h2.length_le)
    simp [hnot, hk]

theorem opDelete_kvs (s : Server) (key : Bytes) :
    (s.opDelete key).kvs = s.kvs.filter (fun kv => ¬ kv.Key = key) := by
  unfold Server.opDelete
  split
  · rfl
  · rename_i h
    symm
    rw [List.filter_eq_self]
    intro kv hkv
    simp only [List.any_eq_true, not_exists, not_and, decide_eq_true_eq] at h
    simpa using h kv hkv

theorem kineStorage_Delete_ok {s s' : Server} {key : Bytes}
    (h : kineStorage.Delete s key = (none, s')) :
    s'.kvs = s.kvs.filter (fun kv => ¬ kv.Key = key) := by
  unfold kineStorage.Delete at h
  split at h
  · simp at h
  · split at h
    · simp at h
    · split at h
      · rename_i heq
        unfold Server.txn at heq
        split at heq
        · simp only [Prod.mk.injEq, true_and] at heq h
          subst heq; subst h
          exact opDelete_kvs _ _
        · simp at heq
      · simp at h

theorem sweepLoop_ok (touched : List Bytes) :
    ∀ (L : List KeyValue) (ss ss' : Session Server),
      sweepLoop L ss touched = (none, ss') →
      (∀ kv ∈ ss'.backend.kvs, kv ∈ ss.backend.kvs) ∧
      (∀ kv ∈ ss.backend.kvs, kv.Key ∈ touched → kv ∈ ss'.backend.kvs) ∧
      (∀ kv ∈ L, kv.Key ∉ touched →
        Call.Delete kv.Key ∈ ss'.calls ∧ ∀ kv' ∈ ss'.backend.kvs, kv'.Key ≠ kv.Key) ∧
      (∀ c ∈ ss.calls, c ∈ ss'.calls) ∧
      (∀ c ∈ ss'.calls, c ∈ ss.calls ∨ ∃ k, c = Call.Delete k ∧ k ∉ touched) := by
  intro L
  induction L with
  | nil =>
    intro ss ss' h
    simp only [sweepLoop, Prod.mk.injEq, true_and] at h
    subst h
    refine ⟨fun _ h => h, fun _ h _ => h, ?_, fun _ h => h, fun _ h => Or.inl h⟩
    intro kv hkv
    cases hkv
  | cons kv rest ih =>
    intro ss ss' h
    unfold sweepLoop at h
    split at h
    · rename_i ht
      obtain ⟨h1, h2, h3, h4, h5⟩ := ih ss ss' h
      refine ⟨h1, h2, ?_, h4, h5⟩
      intro kv' hkv' hnot
      rcases List.mem_cons.1 hkv' with rfl | hmem
      · exact absurd ht hnot
      · exact h3 kv' hmem hnot
    · rename_i ht
      split at h
      · simp at h
      · rename_i b hdel
        obtain ⟨h1, h2, h3, h4, h5⟩ := ih _ ss' h
        have hk := kineStorage_Delete_ok hdel
        simp only at h1 h2 h3 h4 h5
        refine ⟨?_, ?_, ?_, ?_, ?_⟩
        · intro x hx
          have := h1 x hx
          rw [hk] at this
          exact (List.mem_filter.1 this).1
        · intro x hx hxt
          apply h2 x _ hxt
          rw [hk]
          refine List.mem_filter.2 ⟨hx, ?_⟩
          have : x.Key ≠ kv.Key := fun e => ht (e ▸ hxt)
          simpa using this
        · intro kv' hkv' hnot
          rcases List.mem_cons.1 hkv' with rfl | hmem
          · refine ⟨h4 _ (by simp), ?_⟩
            intro x hx
            have := h1 x hx
            rw [hk] at this
            simpa using (List.mem_filter.1 this).2
          · exact h3 kv' hmem hnot
        · intro c hc
          exact h4 c (by simp [hc])
        · intro c hc
          rcases h5 c hc with h | h
          · rcases List.mem_append.1 h with h | h
            · exact Or.inl h
            · right
              simp only [List.mem_singleton] at h
              exact ⟨kv.Key, h, ht⟩
          · exact Or.inr h


theorem writeBoth_calls {σ : Type} (client : Storage σ) (ss : Session σ)
    (key originalKey value k : Bytes)
    (h : Call.Delete k ∈ (writeBoth client ss key originalKey value).2.calls) :
    Call.Delete k ∈ ss.calls := by
  unfold writeBoth at h
  split at h
  · simpa using h
  · split at h <;> simpa using h

theorem restoreKeyValue_calls {σ Obj : Type} (client : Storage σ) (libs : Libs Bytes Obj)
    (ss : Session σ) (key value k : Bytes)
    (h : Call.Delete k ∈ (restoreKeyValue client libs ss key value).2.calls) :
    Call.Delete k ∈ ss.calls := by
  unfold restoreKeyValue at h
  split at h
  · simpa using h
  · simp only at h
    split at h
    · simpa using h
    · split at h
      · simpa using h
      · split at h
        · split at h
          · simpa using h
          · simpa using h
          · simpa using writeBoth_calls _ _ _ _ _ _ h
        · simpa using writeBoth_calls _ _ _ _ _ _ h

theorem replayLoop_calls {Obj : Type} (libs : Libs Bytes Obj) (readErr : Option Err) (k : Bytes) :
    ∀ (entries : List (Bytes × Bytes)) (ss : Session Server) (touched : List Bytes),
      Call.Delete k ∈ (replayLoop libs readErr entries ss touched).2.1.calls →
      Call.Delete k ∈ ss.calls := by
  intro entries
  induction entries with
  | nil =>
    intro ss touched h
    unfold replayLoop at h
    split at h <;> exact h
  | cons e rest ih =>
    intro ss touched h
    obtain ⟨key, value⟩ := e
    unfold replayLoop at h
    split at h
    · exact h
    · split at h
      · rename_i heq
        have := restoreKeyValue_calls kineStorage libs ss key value k
        rw [heq] at this
        exact this h
      · rename_i heq
        have := restoreKeyValue_calls kineStorage libs ss key value k
        rw [heq] at this
        exact this (ih _ _ h)

theorem mem_rangePrefix {s : Server} {pre : Bytes} {kv : KeyValue} :
    kv ∈ s.rangePrefix pre ↔ kv ∈ s.kvs ∧ HasPrefix kv.Key pre = true := by
  simp [Server.rangePrefix, List.mem_filter]

theorem has_eq_false_iff {s : Server} {key : Bytes} :
    s.has key = false ↔ ∀ kv ∈ s.kvs, kv.Key ≠ key := by
  simp [Server.has]

theorem kineStorage_Get_absent (s : Server) (key : Bytes) (h : s.has key = false) :
    kineStorage.Get s key = (Value.zero, some Err.ErrKeyNotFound) := by
  have hr : s.range key = [] := by
    simp only [Server.has, List.any_eq_false, decide_eq_true_eq] at h
    simp only [Server.range, List.filter_eq_nil_iff, decide_eq_true_eq]
    exact h
  simp [kineStorage.Get, hr]

theorem Restore_ok_inv {Obj : Type} (env : Env) (libs : Libs Bytes Obj)
    (archive : Archive) (s : Server)
    (hok : (Restore env libs (some archive) s).err = none) :
    env.distroIsK3s = true ∧ env.startErr = none ∧
    ∃ ss touched ss',
      replayLoop libs archive.readErr archive.entries ⟨s, []⟩ [] = (none, ss, touched) ∧
      sweepLoop (ss.backend.rangePrefix originalPrefix)
        ⟨ss.backend, ss.calls ++ [Call.List originalPrefix]⟩ touched = (none, ss') ∧
      Restore env libs (some archive) s = ⟨none, ss'.backend, touched, ss'.calls⟩ := by
  revert hok
  unfold Restore
  simp only
  split
  · intro h; simp at h
  · rename_i hd
    split
    · intro h; simp at h
    · rename_i hs
      split
      · intro h; simp at h
      · rename_i ss touched hrep
        simp only [kineStorage.List]
        generalize hsweep : sweepLoop (ss.backend.rangePrefix originalPrefix)
          ⟨ss.backend, ss.calls ++ [Call.List originalPrefix]⟩ touched = r
        obtain ⟨err, ss'⟩ := r
        intro herr
        simp only at herr
        subst herr
        exact ⟨by simpa using hd, hs, ss, touched, ss', hrep, hsweep, rfl⟩

theorem Restore_of_parts {Obj : Type} (env : Env) (libs : Libs Bytes Obj)
    (archive : Archive) (s : Server) (ss ss' : Session Server) (touched : List Bytes)
    (hd : env.distroIsK3s = true) (hs : env.startErr = none)
    (hrep : replayLoop libs archive.readErr archive.entries ⟨s, []⟩ [] = (none, ss, touched))
    (hsweep : sweepLoop (ss.backend.rangePrefix originalPrefix)
        ⟨ss.backend, ss.calls ++ [Call.List originalPrefix]⟩ touched = (none, ss')) :
    Restore env libs (some archive) s = ⟨none, ss'.backend, touched, ss'.calls⟩ := by
  unfold Restore
  simp [hd, hs, hrep, kineStorage.List, hsweep]

theorem restoreKeyValue_neutral {σ Obj : Type} (client : Storage σ)
    (libs : Libs Bytes Obj) (ss : Session σ) (key value : Bytes) (originalValue currentValue : Value)
    (hreg : HasPrefix key registryPrefix = true)
    (horig : client.Get ss.backend (originalKeyOf key) = (originalValue, none))
    (hcur : client.Get ss.backend key = (currentValue, none))
    (hom : originalValue.Modified ≠ 0) (hcm : currentValue.Modified ≠ 0)
    (heq : originalValue.Data = value) :
    restoreKeyValue client libs ss key value =
      ((originalKeyOf key, none),
        ⟨ss.backend, ss.calls ++ [Call.Get (originalKeyOf key), Call.Get key]⟩) := by
  have hm : applyThreeWayMerge originalValue.Data value currentValue.Data libs = .ok none := by
    simp [applyThreeWayMerge, heq]
  unfold restoreKeyValue
  simp [hreg, horig, hcur, hom, hcm, hm]

theorem originalKeyOf_ne_nil (key : Bytes) : originalKeyOf key ≠ [] := by
  simp [originalKeyOf, originalPrefix]

theorem registry_ne_nil {key : Bytes} (h : HasPrefix key registryPrefix = true) :
    ¬ key.length = 0 := by
  intro h0
  have : key = [] := List.length_eq_zero.1 h0
  subst this
  simp [HasPrefix, registryPrefix] at h

theorem replayLoop_readErr {Obj : Type} (libs : Libs Bytes Obj) (readErr : Option Err) :
    ∀ (entries : List (Bytes × Bytes)) (ss ss' : Session Server) (touched touched' : List Bytes),
      (∀ e ∈ entries, HasPrefix e.1 registryPrefix = true) →
      replayLoop libs readErr entries ss touched = (none, ss', touched') →
      readErr = none := by
  intro entries
  induction entries with
  | nil =>
    intro ss ss' touched touched' _ h
    unfold replayLoop at h
    split at h
    · simp at h
    · rfl
  | cons e rest ih =>
    intro ss ss' touched touched' hreg h
    obtain ⟨key, value⟩ := e
    unfold replayLoop at h
    rw [if_neg (registry_ne_nil (hreg (key, value) (by simp)))] at h
    split at h
    · simp at h
    · exact ih _ _ _ _ (fun e he => hreg e (by simp [he])) h

theorem writeBoth_key {σ : Type} (client : Storage σ) (ss ss' : Session σ)
    (key originalKey value k : Bytes)
    (h : writeBoth client ss key originalKey value = ((k, none), ss')) : k = originalKey := by
  unfold writeBoth at h
  split at h
  · simp at h
  · split at h
    · simp at h
    · simp only [Prod.mk.injEq] at h
      exact h.1.1.symm

theorem restoreKeyValue_key {σ Obj : Type} (client : Storage σ) (libs : Libs Bytes Obj)
    (ss ss' : Session σ) (key value k : Bytes)
    (h : restoreKeyValue client libs ss key value = ((k, none), ss')) :
    k = [] ∨ k = originalKeyOf key := by
  unfold restoreKeyValue at h
  split at h
  · simp only [Prod.mk.injEq] at h
    exact Or.inl h.1.1.symm
  · simp only at h
    split at h
    · simp at h
    · split at h
      · simp at h
      · split at h
        · split at h
          · simp at h
          · simp only [Prod.mk.injEq] at h
            exact Or.inr h.1.1.symm
          · exact Or.inr (writeBoth_key _ _ _ _ _ _ _ h)
        · exact Or.inr (writeBoth_key _ _ _ _ _ _ _ h)

theorem replayLoop_touched {Obj : Type} (libs : Libs Bytes Obj) (readErr : Option Err) :
    ∀ (entries : List (Bytes × Bytes)) (ss ss' : Session Server) (touched touched' : List Bytes),
      replayLoop libs readErr entries ss touched = (none, ss', touched') →
      ∀ k ∈ touched', k ∈ touched ∨ ∃ e ∈ entries, k = originalKeyOf e.1 := by
  intro entries
  induction entries with
  | nil =>
    intro ss ss' touched touched' h k hk
    unfold replayLoop at h
    split at h
    · simp at h
    · simp only [Prod.mk.injEq, true_and] at h
      rw [← h.2] at hk
      exact Or.inl hk
  | cons e rest ih =>
    intro ss ss' touched touched' h k hk
    obtain ⟨key, value⟩ := e
    unfold replayLoop at h
    split at h
    · simp only [Prod.mk.injEq, true_and] at h
      rw [← h.2] at hk
      exact Or.inl hk
    · split at h
      · simp at h
      · rename_i originalKey ss1 heq
        rcases ih _ _ _ _ h k hk with h1 | ⟨e, he, hke⟩
        · split at h1
          · rcases List.mem_cons.1 h1 with h2 | h2
            · rcases restoreKeyValue_key _ _ _ _ _ _ _ heq with h3 | h3
              · rename_i hne
                exact absurd h3 hne
              · exact Or.inr ⟨(key, value), by simp, by rw [h2, h3]⟩
            · exact Or.inl h2
          · exact Or.inl h1
        · exact Or.inr ⟨e, by simp [he], hke⟩

theorem sweepLoop_all_touched (touched : List Bytes) :
    ∀ (L : List KeyValue) (ss : Session Server),
      (∀ kv ∈ L, kv.Key ∈ touched) → sweepLoop L ss touched = (none, ss) := by
  intro L
  induction L with
  | nil => intro ss _; rfl
  | cons kv rest ih =>
    intro ss h
    unfold sweepLoop
    rw [if_pos (h kv (by simp))]
    exact ih ss (fun kv' hkv' => h kv' (by simp [hkv']))

theorem CharClass.accepts_of_le {a b : CharClass} (h : a.le b = true) (x : Char)
    (hx : a.accepts x = true) : b.accepts x = true := by
  cases a <;> cases b <;> simp_all [CharClass.le, CharClass.accepts]

theorem matchFrom_mono : ∀ (b : Bytes) (re₁ re₂ : List Atom),
    reLe re₁ re₂ = true → matchFrom re₁ b = true → matchFrom re₂ b = true := by
  intro b
  induction b with
  | nil =>
    intro re₁ re₂ hle hm
    cases re₁ with
    | nil =>
      cases re₂ with
      | nil => rfl
      | cons _ _ => simp [reLe] at hle
    | cons a as => simp [matchFrom] at hm
  | cons c cs ih =>
    intro re₁ re₂ hle hm
    cases re₁ with
    | nil =>
      cases re₂ with
      | nil => rfl
      | cons _ _ => simp [reLe] at hle
    | cons a as =>
      cases re₂ with
      | nil => cases a <;> simp [reLe] at hle
      | cons a' as' =>
        cases a with
        | one cls =>
          cases a' with
          | one cls' =>
            simp only [reLe, Bool.and_eq_true] at hle
            simp only [matchFrom, Bool.and_eq_true] at hm ⊢
            exact ⟨CharClass.accepts_of_le hle.1 c hm.1, ih _ _ hle.2 hm.2⟩
          | plus cls' => simp [reLe] at hle
        | plus cls =>
          cases a' with
          | one cls' => simp [reLe] at hle
          | plus cls' =>
            have hle' := hle
            simp only [reLe, Bool.and_eq_true] at hle
            simp only [matchFrom, Bool.and_eq_true, Bool.or_eq_true] at hm ⊢
            refine ⟨CharClass.accepts_of_le hle.1 c hm.1, ?_⟩
            rcases hm.2 with h | h
            · exact Or.inl (ih _ _ hle.2 h)
            · exact Or.inr (ih _ _ hle' h)

theorem Match_mono (re₁ re₂ : List Atom) (hle : reLe re₁ re₂ = true) (b : Bytes)
    (h : Regexp.Match re₁ b = true) : Regexp.Match re₂ b = true := by
  simp only [Regexp.Match, List.any_eq_true] at h ⊢
  obtain ⟨t, ht, hm⟩ := h
  exact ⟨t, ht, matchFrom_mono t re₁ re₂ hle hm⟩

theorem spec_le_kubeRootCaCrt : reLe specKubeRootCaCrt kubeRootCaCrt = true := by decide

theorem snapshotKeyValue_entries {Obj : Type} (codec : ObjectCodec Obj)
    (tw : List (Bytes × Bytes)) (key value : Bytes) :
    ∀ e ∈ (snapshotKeyValue codec tw key value).2,
      e ∈ tw ∨ (e = (key, value) ∧ ∃ obj, codec.Decode value = .ok obj ∧
        isExcluded codec obj = false) := by
  intro e he
  unfold snapshotKeyValue at he
  split at he
  · exact Or.inl he
  · rename_i obj hdec
    split at he
    · exact Or.inl he
    · rename_i hex
      simp only [WriteKeyValue, List.mem_append, List.mem_singleton] at he
      rcases he with h | h
      · exact Or.inl h
      · exact Or.inr ⟨h, obj, hdec, by simpa using hex⟩

theorem snapshotLoop_entries {Obj : Type} (codec : ObjectCodec Obj) :
    ∀ (listing : List KeyValue) (tw : List (Bytes × Bytes)),
      ∀ e ∈ (snapshotLoop codec listing tw).2,
        e ∈ tw ∨ (Regexp.Match kubeRootCaCrt e.1 = false ∧
          ∃ obj, codec.Decode e.2 = .ok obj ∧ isExcluded codec obj = false) := by
  intro listing
  induction listing with
  | nil => intro tw e he; exact Or.inl he
  | cons r rest ih =>
    intro tw e he
    unfold snapshotLoop at he
    split at he
    · exact ih tw e he
    · split at he
      · exact ih tw e he
      · rename_i hre
        have hkv := snapshotKeyValue_entries codec tw r.Key r.Value
        split at he
        · rename_i err tw' heq
          rw [heq] at hkv
          rcases hkv e he with h | ⟨h, hobj⟩
          · exact Or.inl h
          · subst h
            exact Or.inr ⟨by simpa using hre, hobj⟩
        · rename_i tw' heq
          rw [heq] at hkv
          rcases ih tw' e he with h | h
          · rcases hkv e h with h | ⟨h, hobj⟩
            · exact Or.inl h
            · subst h
              exact Or.inr ⟨by simpa using hre, hobj⟩
          · exact Or.inr h

theorem snapshotLoop_complete {Obj : Type} (codec : ObjectCodec Obj) :
    ∀ (listing : List KeyValue) (tw : List (Bytes × Bytes)),
      (∀ r ∈ listing, ∃ obj, codec.Decode r.Value = .ok obj) →
      snapshotLoop codec listing tw =
        (none, tw ++ (listing.filter (kept codec)).map (fun r => (r.Key, r.Value))) := by
  intro listing
  induction listing with
  | nil => intro tw _; simp [snapshotLoop]
  | cons r rest ih =>
    intro tw h
    have hrest : ∀ r' ∈ rest, ∃ obj, codec.Decode r'.Value = .ok obj :=
      fun r' hr' => h r' (by simp [hr'])
    obtain ⟨obj, hobj⟩ := h r (by simp)
    unfold snapshotLoop
    by_cases h1 : r.Key.length = 0 ∨ r.Value.length = 0
    · rw [if_pos h1, ih tw hrest]
      have h1' : r.Key = [] ∨ r.Value = [] := by simpa using h1
      have : kept codec r = false := by
        rcases h1' with e | e <;> simp [kept, e]
      simp [List.filter_cons, this]
    · rw [if_neg h1]
      have h1' : ¬ r.Key = [] ∧ ¬ r.Value = [] := by simpa using h1
      by_cases h2 : Regexp.Match kubeRootCaCrt r.Key = true
      · rw [if_pos h2, ih tw hrest]
        have : kept codec r = false := by simp [kept, h2]
        simp [List.filter_cons, this]
      · rw [if_neg h2]
        by_cases h3 : isExcluded codec obj = true
        · have hk : kept codec r = false := by simp [kept, hobj, h3]
          simp [snapshotKeyValue, hobj, h3, ih tw hrest, List.filter_cons, hk]
        · have hk : kept codec r = true := by
            simp only [kept, hobj]
            simp [h1', h2, h3]
          simp [snapshotKeyValue, hobj, h3, WriteKeyValue, ih _ hrest, List.filter_cons, hk]

theorem Fields.induct {P : Fields → Prop} (hnil : P .nil)
    (hcons : ∀ n v rest, P rest → P (.cons n v rest)) : ∀ fs, P fs
  | .nil => hnil
  | .cons n v rest => hcons n v rest (Fields.induct hnil hcons rest)

theorem Fields.lookup_set (ts : Fields) (n m : Bytes) (x : Json) :
    (ts.set n x).lookup m = if n = m then some x else ts.lookup m := by
  induction ts using Fields.induct with
  | hnil => simp [Fields.set, Fields.lookup]
  | hcons k v rest ih =>
    unfold Fields.set
    by_cases hk : k = n
    · subst hk
      by_cases hm : k = m <;> simp [Fields.lookup, hm]
    · by_cases hm : k = m
      · subst hm
        have hnk : ¬ n = k := fun h => hk h.symm
        simp [Fields.lookup, hk, hnk]
      · simp [Fields.lookup, hk, hm, ih]

theorem Fields.lookup_eq_none_iff (fs : Fields) (n : Bytes) :
    fs.lookup n = none ↔ n ∉ fs.keys := by
  induction fs using Fields.induct with
  | hnil => simp [Fields.lookup, Fields.keys]
  | hcons k v rest ih =>
    by_cases hk : k = n
    · simp [Fields.lookup, Fields.keys, hk]
    · have hnk : ¬ n = k := fun h => hk h.symm
      simp [Fields.lookup, Fields.keys, hk, hnk, ih]

theorem kineStorage_Get_filter (s : Server) (key : Bytes) :
    (kineStorage.Get s key).2.filter (fun err => !err.isKeyNotFound) = none := by
  unfold kineStorage.Get
  split <;> simp [Option.filter, Err.isKeyNotFound]

theorem kineStorage_Get_congr {s s' : Server} {key : Bytes} (h : s'.range key = s.range key) :
    kineStorage.Get s' key = kineStorage.Get s key := by
  unfold kineStorage.Get
  rw [h]

theorem restoreKeyValue_noUpdate {Obj : Type} (libs : Libs Bytes Obj) (ss : Session Server)
    (key value : Bytes) (hreg : HasPrefix key registryPrefix = true)
    (h : noUpdate libs ss.backend key value) :
    restoreKeyValue kineStorage libs ss key value =
      ((originalKeyOf key, none),
        ⟨ss.backend, ss.calls ++ [Call.Get (originalKeyOf key), Call.Get key]⟩) := by
  obtain ⟨h1, h2, h3⟩ := h
  have hg : (Etcd.kineStorage).Get = kineStorage.Get := rfl
  unfold restoreKeyValue
  simp [hreg, hg, kineStorage_Get_filter, h1, h2, h3]

theorem kineStorage_Put_ok {s b : Server} {key value : Bytes}
    (h : kineStorage.Put s key value = (none, b)) :
    (∃ kv, s.range key = [kv]) ∧ b = s.opPut key value := by
  unfold kineStorage.Put at h
  split at h
  · simp at h
  · rename_i val hget
    have hr : ∃ kv, s.range key = [kv] := by
      unfold kineStorage.Get at hget
      split at hget
      · rename_i kv hkv; exact ⟨kv, hkv⟩
      · simp at hget
    refine ⟨hr, ?_⟩
    split at h
    · unfold kineStorage.Create Server.txn at h
      split at h
      · rename_i heq
        split at heq
        · simp only [Prod.mk.injEq, true_and] at heq h
          rw [← h, ← heq]
        · simp at heq
      · simp at h
    · unfold kineStorage.Update Server.txn at h
      split at h
      · rename_i heq
        split at heq
        · simp only [Prod.mk.injEq, true_and] at heq h
          rw [← h, ← heq]
        · simp at heq
      · simp at h

theorem upsert_filter_ne (key value : Bytes) (rev : Nat) (k : Bytes) (hk : ¬ k = key) :
    ∀ kvs : List KeyValue,
      (upsert key value rev kvs).filter (fun kv => kv.Key = k) =
        kvs.filter (fun kv => kv.Key = k) := by
  intro kvs
  have hk' : ¬ key = k := fun e => hk e.symm
  induction kvs with
  | nil => simp [upsert, hk']
  | cons kv rest ih =>
    unfold upsert
    by_cases h : kv.Key = key
    · rw [if_pos h]
      have : ¬ kv.Key = k := by rw [h]; exact hk'
      simp [List.filter_cons, hk', this]
    · rw [if_neg h]
      simp only [List.filter_cons, ih]

theorem range_opPut_ne (s : Server) (key value k : Bytes) (hk : ¬ k = key) :
    (s.opPut key value).range k = s.range k := by
  simp only [Server.range, Server.opPut]
  exact upsert_filter_ne key value _ k hk s.kvs

theorem kineStorage_Get_modified {s : Server} {key : Bytes} {kv : KeyValue}
    (hrev : ∀ kv ∈ s.kvs, kv.ModRevision ≠ 0) (h : s.range key = [kv]) :
    (kineStorage.Get s key).1.Modified ≠ 0 := by
  have hmem : kv ∈ s.kvs := by
    have : kv ∈ s.range key := by rw [h]; simp
    exact (List.mem_filter.1 this).1
  simp only [kineStorage.Get, h]
  exact hrev kv hmem

theorem registry_not_original {key : Bytes} (h : HasPrefix key registryPrefix = true) :
    HasPrefix key originalPrefix = false := by
  have h2 : registryPrefix <+: key := by simpa [HasPrefix] using h
  obtain ⟨t, rfl⟩ := h2
  simp [HasPrefix, registryPrefix, originalPrefix, List.isPrefixOf]

theorem originalKeyOf_hasPrefix (key : Bytes) : HasPrefix (originalKeyOf key) originalPrefix = true := by
  simp [HasPrefix, originalKeyOf]

theorem originalKeyOf_ne_self {key : Bytes} (h : HasPrefix key registryPrefix = true) :
    ¬ originalKeyOf key = key := by
  intro e
  have h1 := originalKeyOf_hasPrefix key
  rw [e, registry_not_original h] at h1
  simp at h1

theorem convert_ok {β Obj : Type} {object encoded : β} {decoder : β → Except Err Obj}
    {encoder : Obj → Except Err β} (h : convert object decoder encoder = .ok encoded) :
    ∃ obj, encoder obj = .ok encoded := by
  unfold convert at h
  split at h
  · simp at h
  · rename_i obj _
    split at h
    · simp at h
    · rename_i enc henc
      simp only [Except.ok.injEq] at h
      subst h
      exact ⟨obj, henc⟩

theorem applyThreeWayMerge_no_document {β Obj : Type} [DecidableEq β] (libs : Libs β Obj)
    (henc : ∀ obj, ∃ err, libs.Encode obj = .error err) (original modified current merged : β) :
    applyThreeWayMerge original modified current libs ≠ .ok (some merged) := by
  intro h
  unfold applyThreeWayMerge at h
  split at h
  · simp at h
  · split at h
    · simp at h
    · split at h
      · simp at h
      · split at h
        · simp at h
        · split at h
          · simp at h
          · split at h
            · simp at h
            · split at h
              · simp at h
              · split at h
                · simp at h
                · rename_i encoded hconv
                  obtain ⟨obj, hobj⟩ := convert_ok hconv
                  obtain ⟨err, herr⟩ := henc obj
                  rw [herr] at hobj
                  simp at hobj


theorem writeBoth_ok {σ : Type} (client : Storage σ) (ss ss' : Session σ)
    (key originalKey value k : Bytes)
    (h : writeBoth client ss key originalKey value = ((k, none), ss')) :
    ∃ b b', client.Put ss.backend key value = (none, b) ∧
      client.Put b originalKey value = (none, b') := by
  unfold writeBoth at h
  split at h
  · simp at h
  · rename_i b hb
    split at h
    · simp at h
    · rename_i b' hb'
      exact ⟨b, b', hb, hb'⟩

theorem restoreKeyValue_ok_noUpdate {Obj : Type} (libs : Libs Bytes Obj)
    (henc : ∀ obj, ∃ err, libs.Encode obj = .error err)
    (ss ss' : Session Server) (key value k : Bytes)
    (hreg : HasPrefix key registryPrefix = true)
    (hrev : ∀ kv ∈ ss.backend.kvs, kv.ModRevision ≠ 0)
    (h : restoreKeyValue kineStorage libs ss key value = ((k, none), ss')) :
    noUpdate libs ss.backend key value := by
  have hg : (Etcd.kineStorage).Get = kineStorage.Get := rfl
  have hp : (Etcd.kineStorage).Put = kineStorage.Put := rfl
  unfold restoreKeyValue at h
  simp only [hreg, not_true_eq_false, if_false, hg] at h
  have f1 := kineStorage_Get_filter ss.backend (originalKeyOf key)
  have f2 := kineStorage_Get_filter ss.backend key
  simp only [Bool.not_eq_true, Bool.decide_eq_false] at h
  rw [f1] at h
  simp only at h
  rw [f2] at h
  simp only at h
  split at h
  · rename_i hboth
    split at h
    · simp at h
    · rename_i hm
      exact ⟨hboth.1, hboth.2, hm⟩
    · rename_i merged hm
      exact absurd hm (applyThreeWayMerge_no_document libs henc _ _ _ merged)
  · rename_i hnot
    exfalso
    obtain ⟨b, b', hb, hb'⟩ := writeBoth_ok _ _ _ _ _ _ _ h
    rw [hp] at hb hb'
    simp only at hb hb'
    obtain ⟨⟨kv, hkv⟩, hbeq⟩ := kineStorage_Put_ok hb
    obtain ⟨⟨kv', hkv'⟩, _⟩ := kineStorage_Put_ok hb'
    rw [hbeq, range_opPut_ne _ _ _ _ (originalKeyOf_ne_self hreg)] at hkv'
    exact hnot ⟨kineStorage_Get_modified hrev hkv', kineStorage_Get_modified hrev hkv⟩

theorem replayLoop_ok_noUpdate {Obj : Type} (libs : Libs Bytes Obj) (readErr : Option Err)
    (henc : ∀ obj, ∃ err, libs.Encode obj = .error err) :
    ∀ (entries : List (Bytes × Bytes)) (ss ss' : Session Server) (touched touched' : List Bytes),
      (∀ e ∈ entries, HasPrefix e.1 registryPrefix = true) →
      (∀ kv ∈ ss.backend.kvs, kv.ModRevision ≠ 0) →
      replayLoop libs readErr entries ss touched = (none, ss', touched') →
      ∀ e ∈ entries, noUpdate libs ss.backend e.1 e.2 := by
  intro entries
  induction entries with
  | nil => intro ss ss' touched touched' _ _ _ e he; cases he
  | cons e rest ih =>
    intro ss ss' touched touched' hreg hrev h
    obtain ⟨key, value⟩ := e
    have hk := hreg (key, value) (by simp)
    unfold replayLoop at h
    rw [if_neg (registry_ne_nil hk)] at h
    split at h
    · simp at h
    · rename_i originalKey ss1 heq
      have hno := restoreKeyValue_ok_noUpdate libs henc ss ss1 key value originalKey hk hrev heq
      have heq2 := restoreKeyValue_noUpdate libs ss key value hk hno
      rw [heq2] at heq
      simp only [Prod.mk.injEq] at heq
      have hss1 : ss1.backend = ss.backend := by rw [← heq.2]
      have hrest := ih ss1 ss' _ touched' (fun e he => hreg e (by simp [he]))
        (by rw [hss1]; exact hrev) h
      intro e he
      rcases List.mem_cons.1 he with rfl | he'
      · exact hno
      · have := hrest e he'
        rw [hss1] at this
        exact this

theorem replayLoop_noUpdate {Obj : Type} (libs : Libs Bytes Obj) (s : Server) :
    ∀ (entries : List (Bytes × Bytes)) (calls : List Call) (touched : List Bytes),
      (∀ e ∈ entries, HasPrefix e.1 registryPrefix = true ∧ noUpdate libs s e.1 e.2) →
      replayLoop libs none entries ⟨s, calls⟩ touched =
        (none, ⟨s, calls ++ settledCalls entries⟩,
          (entries.map (fun e => originalKeyOf e.1)).reverse ++ touched) := by
  intro entries
  induction entries with
  | nil => intro calls touched _; simp [replayLoop, settledCalls]
  | cons e rest ih =>
    intro calls touched h
    obtain ⟨key, value⟩ := e
    have hk := h (key, value) (by simp)
    have hrest : ∀ e ∈ rest, HasPrefix e.1 registryPrefix = true ∧ noUpdate libs s e.1 e.2 :=
      fun e he => h e (by simp [he])
    unfold replayLoop
    rw [if_neg (registry_ne_nil hk.1), restoreKeyValue_noUpdate libs ⟨s, calls⟩ key value hk.1 hk.2]
    simp only [ne_eq, originalKeyOf_ne_nil, not_false_eq_true, if_true]
    rw [ih _ _ hrest]
    simp [settledCalls, List.flatMap_cons]

theorem sweepLoop_range (touched : List Bytes) (key : Bytes) :
    ∀ (L : List KeyValue) (ss ss' : Session Server),
      sweepLoop L ss touched = (none, ss') →
      (∀ kv ∈ L, kv.Key = key → key ∈ touched) →
      ss'.backend.range key = ss.backend.range key := by
  intro L
  induction L with
  | nil =>
    intro ss ss' h _
    simp only [sweepLoop, Prod.mk.injEq, true_and] at h
    rw [h]
  | cons kv rest ih =>
    intro ss ss' h hkey
    have hrest : ∀ kv' ∈ rest, kv'.Key = key → key ∈ touched :=
      fun kv' hkv' => hkey kv' (by simp [hkv'])
    unfold sweepLoop at h
    split at h
    · exact ih ss ss' h hrest
    · rename_i ht
      split at h
      · simp at h
      · rename_i b hdel
        have hk := kineStorage_Delete_ok hdel
        have hne : ¬ key = kv.Key := by
          intro e
          exact ht (e ▸ hkey kv (by simp) e.symm)
        rw [ih _ ss' h hrest]
        simp only [Server.range, hk, List.filter_filter]
        apply List.filter_congr
        intro x _
        by_cases hx : x.Key = key
        · have : ¬ x.Key = kv.Key := by rw [hx]; exact hne
          simp [hx, hne]
        · simp [hx]

theorem noUpdate_congr {Obj : Type} (libs : Libs Bytes Obj) {s s' : Server} {key value : Bytes}
    (ho : s'.range (originalKeyOf key) = s.range (originalKeyOf key))
    (hc : s'.range key = s.range key) (h : noUpdate libs s key value) :
    noUpdate libs s' key value := by
  unfold noUpdate at h ⊢
  rw [kineStorage_Get_congr ho, kineStorage_Get_congr hc]
  exact h

/-! ## The claims -/

/-- C1 (the code departs from the claim). For the archive key `/registry/configmaps/ns/x`
the shadow key that `restoreKeyValue` reads, writes and returns as touched is
`/original//registry/`, which is not `/original/configmaps/ns/x`: line 116 calls
`strings.TrimPrefix(registryPrefix, key)` with its arguments exchanged. -/
theorem restoreKeyValue_shadow_key_divergence {Obj : Type} (libs : Libs Bytes Obj) :
    restoreKeyValue etcdStorage libs ⟨⟨[], 1⟩, []⟩ "/registry/configmaps/ns/x".toList "v".toList =
      (("/original//registry/".toList, none),
        ⟨⟨[⟨"/registry/configmaps/ns/x".toList, "v".toList, 2⟩,
            ⟨"/original//registry/".toList, "v".toList, 3⟩], 3⟩,
          [Call.Get "/original//registry/".toList, Call.Get "/registry/configmaps/ns/x".toList,
           Call.Put "/registry/configmaps/ns/x".toList "v".toList,
           Call.Put "/original//registry/".toList "v".toList]⟩) ∧
    "/original//registry/".toList ≠ originalPrefix ++ "configmaps/ns/x".toList :=
  ⟨rfl, by decide⟩

/-- C2 (the code departs from the claim). On the kine backend `Put` of a key that is
absent returns `ErrKeyNotFound`, leaves the store as it was, and the key is still
absent afterwards: `Put` returns the error of its own `Get` before it reaches the
conditional create. -/
theorem kineStorage_Put_absent_fails (s : Server) (key value : Bytes) (h : s.has key = false) :
    kineStorage.Put s key value = (some Err.ErrKeyNotFound, s) ∧
    (kineStorage.Get (kineStorage.Put s key value).2 key).2 = some Err.ErrKeyNotFound := by
  have hp : kineStorage.Put s key value = (some Err.ErrKeyNotFound, s) := by
    simp [kineStorage.Put, kineStorage_Get_absent s key h]
  refine ⟨hp, ?_⟩
  rw [hp, kineStorage_Get_absent s key h]

/-- Witness of `kineStorage_Put_absent_fails` on the empty store. -/
theorem kineStorage_Put_absent_fails_witness :
    (⟨[], 1⟩ : Server).has "k".toList = false ∧
    kineStorage.Put ⟨[], 1⟩ "k".toList "v1".toList = (some Err.ErrKeyNotFound, ⟨[], 1⟩) ∧
    (kineStorage.Get (kineStorage.Put ⟨[], 1⟩ "k".toList "v1".toList).2 "k".toList).2 =
      some Err.ErrKeyNotFound :=
  ⟨by decide, kineStorage_Put_absent_fails ⟨[], 1⟩ "k".toList "v1".toList (by decide)⟩

/-- C3 (the code departs from the claim). `Restore` of the archive entry
`("/registry/a", "x")` succeeds on a store that holds `/registry/a` and
`/original//registry/`, and the store then holds no key `/original/a`; the key
recorded as touched is `/original//registry/`. -/
theorem Restore_shadow_coverage_divergence {Obj : Type} (libs : Libs Bytes Obj) :
    (Restore k3sEnv libs (some oneEntryArchive)
        ⟨[⟨"/registry/a".toList, "x".toList, 2⟩, ⟨"/original//registry/".toList, "x".toList, 3⟩],
          3⟩).err = none ∧
    HasPrefix "/registry/a".toList registryPrefix = true ∧
    (Restore k3sEnv libs (some oneEntryArchive)
        ⟨[⟨"/registry/a".toList, "x".toList, 2⟩, ⟨"/original//registry/".toList, "x".toList, 3⟩],
          3⟩).server.has (originalPrefix ++ "a".toList) = false ∧
    (Restore k3sEnv libs (some oneEntryArchive)
        ⟨[⟨"/registry/a".toList, "x".toList, 2⟩, ⟨"/original//registry/".toList, "x".toList, 3⟩],
          3⟩).touchedKeys = ["/original//registry/".toList] :=
  ⟨rfl, rfl, rfl, rfl⟩

/-- C4. Sweep soundness: when `Restore` returns success, every key under `/original/`
left in the store is in the touched set built during replay; every listed shadow
key outside the touched set was deleted and is absent; no key of the touched set
was deleted, and the touched keys the replay left in the store are still there. -/
theorem Restore_sweep_sound {Obj : Type} (env : Env) (libs : Libs Bytes Obj)
    (archive : Archive) (s : Server)
    (hok : (Restore env libs (some archive) s).err = none) :
    (∀ kv ∈ (Restore env libs (some archive) s).server.kvs,
        HasPrefix kv.Key originalPrefix = true →
        kv.Key ∈ (Restore env libs (some archive) s).touchedKeys) ∧
    (∀ kv ∈ (replayLoop libs archive.readErr archive.entries ⟨s, []⟩ []).2.1.backend.rangePrefix
          originalPrefix,
        kv.Key ∉ (Restore env libs (some archive) s).touchedKeys →
        Call.Delete kv.Key ∈ (Restore env libs (some archive) s).calls ∧
        (Restore env libs (some archive) s).server.has kv.Key = false) ∧
    (∀ k ∈ (Restore env libs (some archive) s).touchedKeys,
        Call.Delete k ∉ (Restore env libs (some archive) s).calls) ∧
    (∀ kv ∈ (replayLoop libs archive.readErr archive.entries ⟨s, []⟩ []).2.1.backend.kvs,
        kv.Key ∈ (Restore env libs (some archive) s).touchedKeys →
        kv ∈ (Restore env libs (some archive) s).server.kvs) := by
  have hcalls := fun k => replayLoop_calls libs archive.readErr k archive.entries ⟨s, []⟩ []
  revert hok hcalls
  unfold Restore
  simp only
  split
  · intro h; simp at h
  · split
    · intro h; simp at h
    · split
      · intro h; simp at h
      · rename_i ss touched hrep
        rw [hrep]
        simp only [kineStorage.List]
        generalize hsweep : sweepLoop (ss.backend.rangePrefix originalPrefix)
          ⟨ss.backend, ss.calls ++ [Call.List originalPrefix]⟩ touched = r
        obtain ⟨err, ss'⟩ := r
        intro herr hcalls
        simp only at herr
        subst herr
        obtain ⟨h1, h2, h3, h4, h5⟩ := sweepLoop_ok touched _ _ _ hsweep
        simp only at h1 h2 h3 h4 h5 hcalls ⊢
        refine ⟨?_, ?_, ?_, h2⟩
        · intro kv hkv hpre
          by_contra hnot
          have hL : kv ∈ ss.backend.rangePrefix originalPrefix :=
            mem_rangePrefix.2 ⟨h1 kv hkv, hpre⟩
          exact (h3 kv hL hnot).2 kv hkv rfl
        · intro kv hkv hnot
          refine ⟨(h3 kv hkv hnot).1, has_eq_false_iff.2 (h3 kv hkv hnot).2⟩
        · intro k hk hdel
          rcases h5 _ hdel with h | ⟨k', hk', hnot⟩
          · rcases List.mem_append.1 h with h | h
            · have := hcalls k h
              simp at this
            · simp at h
          · cases hk'
            exact hnot hk

/-- Witness of `Restore_sweep_sound`: the stale key `/original/old` is swept, the
touched key stays. -/
theorem Restore_sweep_sound_witness :
    (Restore k3sEnv failingLibs (some oneEntryArchive) staleServer).err = none ∧
    ((∀ kv ∈ (Restore k3sEnv failingLibs (some oneEntryArchive) staleServer).server.kvs,
        HasPrefix kv.Key originalPrefix = true →
        kv.Key ∈ (Restore k3sEnv failingLibs (some oneEntryArchive) staleServer).touchedKeys) ∧
    (∀ kv ∈ (replayLoop failingLibs oneEntryArchive.readErr oneEntryArchive.entries
          ⟨staleServer, []⟩ []).2.1.backend.rangePrefix originalPrefix,
        kv.Key ∉ (Restore k3sEnv failingLibs (some oneEntryArchive) staleServer).touchedKeys →
        Call.Delete kv.Key ∈ (Restore k3sEnv failingLibs (some oneEntryArchive) staleServer).calls ∧
        (Restore k3sEnv failingLibs (some oneEntryArchive) staleServer).server.has kv.Key = false) ∧
    (∀ k ∈ (Restore k3sEnv failingLibs (some oneEntryArchive) staleServer).touchedKeys,
        Call.Delete k ∉ (Restore k3sEnv failingLibs (some oneEntryArchive) staleServer).calls) ∧
    (∀ kv ∈ (replayLoop failingLibs oneEntryArchive.readErr oneEntryArchive.entries
          ⟨staleServer, []⟩ []).2.1.backend.kvs,
        kv.Key ∈ (Restore k3sEnv failingLibs (some oneEntryArchive) staleServer).touchedKeys →
        kv ∈ (Restore k3sEnv failingLibs (some oneEntryArchive) staleServer).server.kvs)) :=
  ⟨by decide, Restore_sweep_sound k3sEnv failingLibs oneEntryArchive staleServer (by decide)⟩

/-- C5 (the code departs from the claim). With the libraries as the repository wires
them `applyThreeWayMerge` never returns a merged document: the last step
(`restore.go` line 196, "encode to protobuf") hands the protobuf serializer an
`Unstructured`, which it cannot encode.  On original `{a:1}`, modified `{a:1,c:3}`
and current `{a:1,b:2}` the patch applied to current is `{a:1,b:2,c:3}`, and the
function returns the error of the encoder instead of that document. -/
theorem applyThreeWayMerge_encode_fails (original modified current : Json) :
    (∀ merged, applyThreeWayMerge original modified current wiredLibs ≠ .ok (some merged)) ∧
    applyThreeWayMerge
        (.obj (.cons "a".toList (.atom "1".toList) .nil))
        (.obj (.cons "a".toList (.atom "1".toList) (.cons "c".toList (.atom "3".toList) .nil)))
        (.obj (.cons "a".toList (.atom "1".toList) (.cons "b".toList (.atom "2".toList) .nil)))
        wiredLibs =
      .error (Err.wrap "encode object"
        (Err.lib "Unstructured does not implement protobuf marshalling")) ∧
    mergePatch
        (.obj (.cons "a".toList (.atom "1".toList) (.cons "b".toList (.atom "2".toList) .nil)))
        (.obj (.cons "c".toList (.atom "3".toList) .nil)) =
      .obj (.cons "a".toList (.atom "1".toList)
        (.cons "b".toList (.atom "2".toList) (.cons "c".toList (.atom "3".toList) .nil))) :=
  ⟨fun merged => applyThreeWayMerge_no_document wiredLibs (fun _ => ⟨_, rfl⟩) _ _ _ merged,
    rfl, rfl⟩

/-- C6 (the code departs from the claim). With the live key `/registry/a` and its
shadow key `/original/a` both stored and the shadow byte-equal to the archive value,
`restoreKeyValue` on the kine backend reads `/original//registry/` instead, skips
the merge, issues `Put` on the live key (which moves its revision) and on
`/original//registry/`, and returns `ErrKeyNotFound` with no touched key.  The merge
itself reports "no change" on byte-equal inputs whatever the libraries do. -/
theorem restoreKeyValue_neutrality_divergence {Obj : Type} (libs : Libs Bytes Obj) :
    restoreKeyValue kineStorage libs
        ⟨⟨[⟨"/registry/a".toList, "x".toList, 2⟩, ⟨"/original/a".toList, "x".toList, 3⟩], 3⟩, []⟩
        "/registry/a".toList "x".toList =
      (([], some Err.ErrKeyNotFound),
        ⟨⟨[⟨"/registry/a".toList, "x".toList, 4⟩, ⟨"/original/a".toList, "x".toList, 3⟩], 4⟩,
          [Call.Get "/original//registry/".toList, Call.Get "/registry/a".toList,
           Call.Put "/registry/a".toList "x".toList,
           Call.Put "/original//registry/".toList "x".toList]⟩) ∧
    applyThreeWayMerge "x".toList "x".toList "x".toList libs = .ok none :=
  ⟨rfl, rfl⟩

/-- C7, counterexample: `Restore` of the archive `[("/config/foo", "bar")]` succeeds,
and running it again on the resulting store issues `Put("/config/foo", "bar")`. -/
theorem Restore_again_puts :
    (Restore k3sEnv failingLibs (some ⟨[("/config/foo".toList, "bar".toList)], none⟩)
        ⟨[⟨"/config/foo".toList, "old".toList, 2⟩], 2⟩).err = none ∧
    Call.Put "/config/foo".toList "bar".toList ∈
      (Restore k3sEnv failingLibs (some ⟨[("/config/foo".toList, "bar".toList)], none⟩)
        (Restore k3sEnv failingLibs (some ⟨[("/config/foo".toList, "bar".toList)], none⟩)
          ⟨[⟨"/config/foo".toList, "old".toList, 2⟩], 2⟩).server).calls := by
  decide

/-- C7, amended: for an archive all of whose entries have registry keys, on a store
whose revisions are positive and with the encoder `Restore` wires in (the protobuf
serializer, which fails on the `Unstructured` it is handed): if `Restore` of the
archive has succeeded, then running `Restore` again with the same archive on the
resulting store succeeds, issues no `Put`, deletes nothing and leaves the store as
it is. -/
theorem Restore_again_registry {Obj : Type} (env : Env) (libs : Libs Bytes Obj)
    (archive : Archive) (s : Server)
    (hok : (Restore env libs (some archive) s).err = none)
    (hreg : ∀ e ∈ archive.entries, HasPrefix e.1 registryPrefix = true)
    (henc : ∀ obj, ∃ err, libs.Encode obj = .error err)
    (hrev : ∀ kv ∈ s.kvs, kv.ModRevision ≠ 0) :
    (Restore env libs (some archive) (Restore env libs (some archive) s).server).err = none ∧
    (∀ key value, Call.Put key value ∉
      (Restore env libs (some archive) (Restore env libs (some archive) s).server).calls) ∧
    (∀ key, Call.Delete key ∉
      (Restore env libs (some archive) (Restore env libs (some archive) s).server).calls) ∧
    (Restore env libs (some archive) (Restore env libs (some archive) s).server).server =
      (Restore env libs (some archive) s).server := by
  obtain ⟨hd, hs, ss, touched, ss', hrep, hsweep, hres⟩ := Restore_ok_inv env libs archive s hok
  rw [hres]
  simp only
  have hread : archive.readErr = none :=
    replayLoop_readErr libs archive.readErr archive.entries _ _ _ _ hreg hrep
  have hno : ∀ e ∈ archive.entries, noUpdate libs s e.1 e.2 :=
    replayLoop_ok_noUpdate libs archive.readErr henc archive.entries ⟨s, []⟩ ss [] touched
      hreg hrev hrep
  have hrep1 := replayLoop_noUpdate libs s archive.entries [] []
    (fun e he => ⟨hreg e he, hno e he⟩)
  rw [hread, hrep1] at hrep
  simp only [Prod.mk.injEq, true_and] at hrep
  obtain ⟨hss, htouched⟩ := hrep
  subst hss
  subst htouched
  simp only at hsweep
  obtain ⟨h1, _, h3, _, _⟩ := sweepLoop_ok _ _ _ _ hsweep
  have hno' : ∀ e ∈ archive.entries, noUpdate libs ss'.backend e.1 e.2 := by
    intro e he
    refine noUpdate_congr libs ?_ ?_ (hno e he)
    · apply sweepLoop_range _ _ _ _ _ hsweep
      intro kv _ _
      simp only [List.append_nil, List.mem_reverse, List.mem_map]
      exact ⟨e, he, rfl⟩
    · apply sweepLoop_range _ _ _ _ _ hsweep
      intro kv hkv hk
      have hp := (mem_rangePrefix.1 hkv).2
      rw [hk, registry_not_original (hreg e he)] at hp
      simp at hp
  have hrep2 := replayLoop_noUpdate libs ss'.backend archive.entries [] []
    (fun e he => ⟨hreg e he, hno' e he⟩)
  have hall : ∀ kv ∈ ss'.backend.rangePrefix originalPrefix,
      kv.Key ∈ (archive.entries.map (fun e => originalKeyOf e.1)).reverse ++ [] := by
    intro kv hkv
    obtain ⟨hmem, hpre⟩ := mem_rangePrefix.1 hkv
    by_contra hnot
    have hL : kv ∈ s.rangePrefix originalPrefix := mem_rangePrefix.2 ⟨h1 kv hmem, hpre⟩
    exact (h3 kv hL hnot).2 kv hmem rfl
  have hsweep2 := sweepLoop_all_touched _ (ss'.backend.rangePrefix originalPrefix)
    ⟨ss'.backend, ([] ++ settledCalls archive.entries) ++ [Call.List originalPrefix]⟩ hall
  have hrep3 : replayLoop libs archive.readErr archive.entries ⟨ss'.backend, []⟩ [] =
      (none, ⟨ss'.backend, [] ++ settledCalls archive.entries⟩,
        (archive.entries.map (fun e => originalKeyOf e.1)).reverse ++ []) := by
    rw [hread]; exact hrep2
  have hres2 := Restore_of_parts env libs archive ss'.backend _ _ _ hd hs hrep3 hsweep2
  rw [hres2]
  simp [settledCalls]

/-- Witness of `Restore_again_registry` on an archive of two registry entries with
different bytes: the first run sweeps `/original/old`, the second changes nothing. -/
theorem Restore_again_registry_witness :
    (Restore k3sEnv blankBlindLibs (some twoEntryArchive) twoKeyServer).err = none ∧
    (∀ e ∈ twoEntryArchive.entries, HasPrefix e.1 registryPrefix = true) ∧
    (∀ obj, ∃ err, blankBlindLibs.Encode obj = .error err) ∧
    (∀ kv ∈ twoKeyServer.kvs, kv.ModRevision ≠ 0) ∧
    (Restore k3sEnv blankBlindLibs (some twoEntryArchive) twoKeyServer).server.has
      "/original/old".toList = false ∧
    ((Restore k3sEnv blankBlindLibs (some twoEntryArchive)
        (Restore k3sEnv blankBlindLibs (some twoEntryArchive) twoKeyServer).server).err = none ∧
    (∀ key value, Call.Put key value ∉
      (Restore k3sEnv blankBlindLibs (some twoEntryArchive)
        (Restore k3sEnv blankBlindLibs (some twoEntryArchive) twoKeyServer).server).calls) ∧
    (∀ key, Call.Delete key ∉
      (Restore k3sEnv blankBlindLibs (some twoEntryArchive)
        (Restore k3sEnv blankBlindLibs (some twoEntryArchive) twoKeyServer).server).calls) ∧
    (Restore k3sEnv blankBlindLibs (some twoEntryArchive)
        (Restore k3sEnv blankBlindLibs (some twoEntryArchive) twoKeyServer).server).server =
      (Restore k3sEnv blankBlindLibs (some twoEntryArchive) twoKeyServer).server) :=
  ⟨by decide, by decide, fun _ => ⟨_, rfl⟩, by decide, by decide,
    Restore_again_registry k3sEnv blankBlindLibs twoEntryArchive twoKeyServer
      (by decide) (by decide) (fun _ => ⟨_, rfl⟩) (by decide)⟩

/-- C8. Snapshot filter: whatever the backend lists and whether or not `Snapshot`
ends in an error, no entry it wrote to the archive has a key matching
`/registry/configmaps/[^/]+/kube-root-ca\.crt` (nor the pattern of the code, with
the unescaped dot), and the value of each written entry decodes to an object that
does not carry `vcluster.loft.sh/exclude = "true"`. -/
theorem Snapshot_filter {Obj : Type} (env : Env) (codec : ObjectCodec Obj) (s : Server)
    (e : Bytes × Bytes) (he : e ∈ (Snapshot env codec s).2) :
    Regexp.Match specKubeRootCaCrt e.1 = false ∧ Regexp.Match kubeRootCaCrt e.1 = false ∧
    ∃ obj, codec.Decode e.2 = .ok obj ∧ isExcluded codec obj = false := by
  have key : Regexp.Match kubeRootCaCrt e.1 = false ∧
      ∃ obj, codec.Decode e.2 = .ok obj ∧ isExcluded codec obj = false := by
    unfold Snapshot at he
    split at he
    · simp at he
    · split at he
      · simp at he
      · split at he
        · simp at he
        · rcases snapshotLoop_entries codec _ [] e he with h | h
          · simp at h
          · exact h
  refine ⟨?_, key.1, key.2⟩
  by_contra hc
  have := Match_mono _ _ spec_le_kubeRootCaCrt e.1 (by simpa using hc)
  rw [key.1] at this
  exact absurd this (by simp)

/-- Witness of `Snapshot_filter` on a listing with a pod, a `kube-root-ca.crt` config
map and an excluded object: the pod is in the archive. -/
theorem Snapshot_filter_witness :
    ("/registry/pods/ns/p".toList, "v".toList) ∈ (Snapshot k3sEnv sampleCodec sampleListing).2 ∧
    (Regexp.Match specKubeRootCaCrt ("/registry/pods/ns/p".toList, "v".toList).1 = false ∧
     Regexp.Match kubeRootCaCrt ("/registry/pods/ns/p".toList, "v".toList).1 = false ∧
     ∃ obj, sampleCodec.Decode ("/registry/pods/ns/p".toList, "v".toList).2 = .ok obj ∧
       isExcluded sampleCodec obj = false) :=
  ⟨by decide,
    Snapshot_filter k3sEnv sampleCodec sampleListing ("/registry/pods/ns/p".toList, "v".toList)
      (by decide)⟩

/-- C9 (the code departs from the claim). The listed entry
`/registry/configmaps/ns/kube-root-caXcrt` has a non-empty key and value, does not
match the pattern with the literal dot, and decodes to an object that is not
excluded, yet `Snapshot` leaves it out of the archive: the pattern of the code has
the dot unescaped, which matches any character. -/
theorem Snapshot_skips_unescaped_dot :
    Snapshot k3sEnv sampleCodec sampleListing = (none, [("/registry/pods/ns/p".toList, "v".toList)]) ∧
    (⟨"/registry/configmaps/ns/kube-root-caXcrt".toList, "v".toList, 5⟩ : KeyValue) ∈
      sampleListing.rangePrefix registryPrefix ∧
    Regexp.Match specKubeRootCaCrt "/registry/configmaps/ns/kube-root-caXcrt".toList = false ∧
    Regexp.Match kubeRootCaCrt "/registry/configmaps/ns/kube-root-caXcrt".toList = true ∧
    sampleCodec.Decode "v".toList = .ok none ∧ isExcluded sampleCodec none = false := by
  refine ⟨by decide, by decide, by decide, by decide, rfl, rfl⟩

/-- C10 (the code departs from the claim). On a store without the key, `Delete` of the
native backend returns no error where the kine backend returns `ErrKeyNotFound`;
both leave the store as it is. -/
theorem etcdStorage_Delete_absent_no_error (rev : Nat) (key : Bytes) :
    etcdStorage.Delete ⟨[], rev⟩ key = (none, ⟨[], rev⟩) ∧
    kineStorage.Delete ⟨[], rev⟩ key = (some Err.ErrKeyNotFound, ⟨[], rev⟩) :=
  ⟨rfl, rfl⟩

theorem restoreKeyValue_nonregistry {σ Obj : Type} (client : Storage σ) (libs : Libs Bytes Obj)
    (ss : Session σ) (key value : Bytes) (hreg : HasPrefix key registryPrefix = false) :
    restoreKeyValue client libs ss key value =
      (([], (client.Put ss.backend key value).1),
        ⟨(client.Put ss.backend key value).2, ss.calls ++ [Call.Put key value]⟩) := by
  simp [restoreKeyValue, hreg]

theorem replayLoop_nonregistry {Obj : Type} (libs : Libs Bytes Obj) (readErr : Option Err)
    (ss : Session Server) (key value : Bytes) (rest : List (Bytes × Bytes))
    (touchedKeys : List Bytes) (hreg : HasPrefix key registryPrefix = false)
    (hkey : ¬ key.length = 0) :
    replayLoop libs readErr ((key, value) :: rest) ss touchedKeys =
      match (kineStorage.Put ss.backend key value).1 with
      | some err =>
        (some (Err.wrap "write key" err),
          ⟨(kineStorage.Put ss.backend key value).2, ss.calls ++ [Call.Put key value]⟩,
          touchedKeys)
      | none =>
        replayLoop libs readErr rest
          ⟨(kineStorage.Put ss.backend key value).2, ss.calls ++ [Call.Put key value]⟩
          touchedKeys := by
  have h := restoreKeyValue_nonregistry kineStorage libs ss key value hreg
  have hput : (Etcd.kineStorage).Put = kineStorage.Put := rfl
  rw [replayLoop, if_neg hkey, h, hput]
  cases (kineStorage.Put ss.backend key value).1 <;> simp

theorem copyInto_lookup (k : Bytes) (a : Fields) :
    ∀ out, a.keys.Nodup →
      (copyInto out a).lookup k =
        match a.lookup k with
        | some v => some v
        | none => out.lookup k := by
  induction a using Fields.induct with
  | hnil => intro out _; simp [copyInto, Fields.lookup]
  | hcons k0 v rest ih =>
    intro out hnd
    simp only [Fields.keys, List.nodup_cons] at hnd
    simp only [copyInto]
    rw [ih _ hnd.2]
    by_cases hk : k0 = k
    · subst hk
      have hrest : rest.lookup k0 = none := (Fields.lookup_eq_none_iff rest k0).2 hnd.1
      simp [hrest, Fields.lookup, Fields.lookup_set]
    · simp [Fields.lookup, Fields.lookup_set, hk]

theorem mergeInto_lookup (k : Bytes) (b : Fields) :
    ∀ out, b.keys.Nodup →
      (mergeInto out b).lookup k =
        match b.lookup k with
        | some v => some (mergeValue (out.lookup k) v)
        | none => out.lookup k := by
  induction b using Fields.induct with
  | hnil => intro out _; simp [mergeInto, Fields.lookup]
  | hcons k0 v rest ih =>
    intro out hnd
    simp only [Fields.keys, List.nodup_cons] at hnd
    simp only [mergeInto]
    rw [ih _ hnd.2]
    by_cases hk : k0 = k
    · subst hk
      have hrest : rest.lookup k0 = none := (Fields.lookup_eq_none_iff rest k0).2 hnd.1
      simp [hrest, Fields.lookup, Fields.lookup_set]
    · simp [Fields.lookup, Fields.lookup_set, hk]

theorem mergeMaps_lookup (a b : Fields) (ha : a.keys.Nodup) (hb : b.keys.Nodup) (k : Bytes) :
    (mergeMaps a b).lookup k =
      match b.lookup k with
      | some v => some (mergeValue (a.lookup k) v)
      | none => a.lookup k := by
  have hc : (copyInto .nil a).lookup k = a.lookup k := by
    rw [copyInto_lookup k a .nil ha]
    cases a.lookup k <;> simp [Fields.lookup]
  unfold mergeMaps
  rw [mergeInto_lookup k b _ hb, hc]

theorem mergeValue_ne_maps (ov : Option Json) (v : Json)
    (h : ∀ av bv, ¬ (ov = some (.obj av) ∧ v = .obj bv)) : mergeValue ov v = v := by
  cases v with
  | null => cases ov with
    | none => rfl
    | some x => cases x <;> rfl
  | atom t => cases ov with
    | none => rfl
    | some x => cases x <;> rfl
  | obj bv =>
    cases ov with
    | none => rfl
    | some x =>
      cases x with
      | null => rfl
      | atom t => rfl
      | obj av => exact absurd ⟨rfl, rfl⟩ (h av bv)

theorem Fields.mem_keys_iff (fs : Fields) (k : Bytes) : k ∈ fs.keys ↔ fs.lookup k ≠ none := by
  rw [ne_eq, Fields.lookup_eq_none_iff]
  simp

/-- C11 (the code departs from the claim). `etcdStorage.Close` only calls itself:
whatever the bound on the number of calls, it has not returned, and it never
closes the client.  `kineStorage.Close` returns the result of closing its client. -/
theorem etcdStorage_Close_never_returns (r : Client) (fuel : Nat) :
    etcdStorage.Close r fuel = none ∧ kineStorage.Close r (fuel + 1) = some r.closeResult := by
  refine ⟨?_, rfl⟩
  induction fuel with
  | zero => rfl
  | succ n ih => simpa [etcdStorage.Close] using ih

theorem replayLoop_nonregistry_touched {Obj : Type} (libs : Libs Bytes Obj)
    (readErr : Option Err) :
    ∀ (entries : List (Bytes × Bytes)) (ss : Session Server) (touchedKeys : List Bytes),
      (∀ e ∈ entries, HasPrefix e.1 registryPrefix = false) →
      (replayLoop libs readErr entries ss touchedKeys).2.2 = touchedKeys := by
  intro entries
  induction entries with
  | nil =>
    intro ss touchedKeys _
    unfold replayLoop
    split <;> rfl
  | cons e rest ih =>
    intro ss touchedKeys h
    obtain ⟨key, value⟩ := e
    by_cases hkey : key.length = 0
    · unfold replayLoop
      rw [if_pos hkey]
    · rw [replayLoop_nonregistry libs readErr ss key value rest touchedKeys
        (h (key, value) (by simp)) hkey]
      split
      · rfl
      · exact ih _ _ (fun e he => h e (by simp [he]))

theorem Restore_touchedKeys {Obj : Type} (env : Env) (libs : Libs Bytes Obj)
    (archive : Archive) (s : Server) :
    (Restore env libs (some archive) s).touchedKeys = [] ∨
    (Restore env libs (some archive) s).touchedKeys =
      (replayLoop libs archive.readErr archive.entries ⟨s, []⟩ []).2.2 := by
  unfold Restore
  simp only
  split
  · exact Or.inl rfl
  · split
    · exact Or.inl rfl
    · split
      · rename_i heq
        rw [heq]
        exact Or.inr rfl
      · rename_i heq
        rw [heq]
        exact Or.inr rfl

/-- C12. Non-registry passthrough: for a key that does not start with `/registry/`,
`restoreKeyValue` issues the single call `Put(key, value)` (no `Get`, no write to
another key), returns that `Put`'s error as it is and the empty string as touched
key; the replay loop of `Restore` passes its touched set on unchanged, and `Restore`
of an archive of such keys ends with an empty touched set. -/
theorem restoreKeyValue_passthrough {σ Obj : Type} (client : Storage σ) (libs : Libs Bytes Obj)
    (ss : Session σ) (key value : Bytes) (hreg : HasPrefix key registryPrefix = false) :
    restoreKeyValue client libs ss key value =
      (([], (client.Put ss.backend key value).1),
        ⟨(client.Put ss.backend key value).2, ss.calls ++ [Call.Put key value]⟩) ∧
    (∀ (readErr : Option Err) (ks : Session Server) (rest : List (Bytes × Bytes))
        (touchedKeys : List Bytes), ¬ key.length = 0 →
      replayLoop libs readErr ((key, value) :: rest) ks touchedKeys =
        match (kineStorage.Put ks.backend key value).1 with
        | some err =>
          (some (Err.wrap "write key" err),
            ⟨(kineStorage.Put ks.backend key value).2, ks.calls ++ [Call.Put key value]⟩,
            touchedKeys)
        | none =>
          replayLoop libs readErr rest
            ⟨(kineStorage.Put ks.backend key value).2, ks.calls ++ [Call.Put key value]⟩
            touchedKeys) ∧
    (∀ (env : Env) (readErr : Option Err) (s : Server),
      (Restore env libs (some ⟨[(key, value)], readErr⟩) s).touchedKeys = []) := by
  refine ⟨restoreKeyValue_nonregistry client libs ss key value hreg, ?_, ?_⟩
  · intro readErr ks rest touchedKeys hkey
    exact replayLoop_nonregistry libs readErr ks key value rest touchedKeys hreg hkey
  · intro env readErr s
    rcases Restore_touchedKeys env libs ⟨[(key, value)], readErr⟩ s with h | h
    · exact h
    · rw [h]
      exact replayLoop_nonregistry_touched libs readErr _ _ _
        (fun e he => by
          simp only [List.mem_singleton] at he
          subst he
          exact hreg)

/-- Witness of `restoreKeyValue_passthrough` on the entry `("/config/foo", "bar")` and a
kine backend that holds `/config/foo`. -/
theorem restoreKeyValue_passthrough_witness :
    HasPrefix "/config/foo".toList registryPrefix = false ∧
    restoreKeyValue kineStorage failingLibs ⟨⟨[⟨"/config/foo".toList, "old".toList, 2⟩], 2⟩, []⟩
        "/config/foo".toList "bar".toList =
      (([], none), ⟨⟨[⟨"/config/foo".toList, "bar".toList, 3⟩], 3⟩,
        [Call.Put "/config/foo".toList "bar".toList]⟩) ∧
    (Restore k3sEnv failingLibs (some ⟨[("/config/foo".toList, "bar".toList)], none⟩)
        ⟨[⟨"/config/foo".toList, "old".toList, 2⟩], 2⟩).touchedKeys = [] :=
  ⟨by decide,
    (restoreKeyValue_passthrough kineStorage failingLibs
      ⟨⟨[⟨"/config/foo".toList, "old".toList, 2⟩], 2⟩, []⟩
      "/config/foo".toList "bar".toList (by decide)).1.trans rfl,
    (restoreKeyValue_passthrough kineStorage failingLibs
      ⟨⟨[⟨"/config/foo".toList, "old".toList, 2⟩], 2⟩, []⟩
      "/config/foo".toList "bar".toList (by decide)).2.2 k3sEnv none
      ⟨[⟨"/config/foo".toList, "old".toList, 2⟩], 2⟩⟩

/-- C13. For maps `a` and `b` (no duplicate keys), `mergeMaps a b` has as keys the union
of the keys of `a` and `b`; a key that is only in `a` holds `a[k]`; a key of `b` at
which both `a[k]` and `b[k]` are maps holds `mergeMaps a[k] b[k]`; every other key
of `b` holds `b[k]`, also when `b[k]` is nil.  The function is pure: it builds a new
map and leaves `a` as it is. -/
theorem mergeMaps_spec (a b : Fields) (ha : a.keys.Nodup) (hb : b.keys.Nodup) :
    (∀ k, k ∈ (mergeMaps a b).keys ↔ k ∈ a.keys ∨ k ∈ b.keys) ∧
    (∀ k, k ∉ b.keys → (mergeMaps a b).lookup k = a.lookup k) ∧
    (∀ k av bv, a.lookup k = some (.obj av) → b.lookup k = some (.obj bv) →
      (mergeMaps a b).lookup k = some (.obj (mergeMaps av bv))) ∧
    (∀ k v, b.lookup k = some v → (∀ av bv, ¬ (a.lookup k = some (.obj av) ∧ v = .obj bv)) →
      (mergeMaps a b).lookup k = some v) := by
  refine ⟨?_, ?_, ?_, ?_⟩
  · intro k
    simp only [Fields.mem_keys_iff, mergeMaps_lookup a b ha hb k]
    cases hbk : b.lookup k <;> simp
  · intro k hk
    have : b.lookup k = none := (Fields.lookup_eq_none_iff b k).2 hk
    rw [mergeMaps_lookup a b ha hb k, this]
  · intro k av bv hak hbk
    rw [mergeMaps_lookup a b ha hb k, hbk, hak]
    rfl
  · intro k v hbk hne
    rw [mergeMaps_lookup a b ha hb k, hbk]
    simp only
    rw [mergeValue_ne_maps _ _ hne]

/-- Witness of `mergeMaps_spec` on `{x: 1, m: {p: 1}}` and `{m: {q: 2}, x: nil, y: 3}`. -/
theorem mergeMaps_spec_witness :
    chartValues.keys.Nodup ∧ releaseConfig.keys.Nodup ∧
    ((∀ k, k ∈ (mergeMaps chartValues releaseConfig).keys ↔
        k ∈ chartValues.keys ∨ k ∈ releaseConfig.keys) ∧
    (∀ k, k ∉ releaseConfig.keys →
      (mergeMaps chartValues releaseConfig).lookup k = chartValues.lookup k) ∧
    (∀ k av bv, chartValues.lookup k = some (.obj av) → releaseConfig.lookup k = some (.obj bv) →
      (mergeMaps chartValues releaseConfig).lookup k = some (.obj (mergeMaps av bv))) ∧
    (∀ k v, releaseConfig.lookup k = some v →
      (∀ av bv, ¬ (chartValues.lookup k = some (.obj av) ∧ v = .obj bv)) →
      (mergeMaps chartValues releaseConfig).lookup k = some v)) ∧
    mergeMaps chartValues releaseConfig =
      .cons "x".toList .null
        (.cons "m".toList (.obj (.cons "p".toList (.atom "1".toList)
            (.cons "q".toList (.atom "2".toList) .nil)))
          (.cons "y".toList (.atom "3".toList) .nil)) :=
  ⟨by decide, by decide, mergeMaps_spec chartValues releaseConfig (by decide) (by decide), rfl⟩

end Etcd
